import Mathlib

/-!
Verification of the formula-translation subsystem and the dependency/execution
order helper of the tableau_to_app repository.

The Python sources embedded here are
  * src/translators/formula_translator.py  (TableauFormulaTranslator)
  * src/agents/extraction_agent.py         (CalculationDependencyMapper)

Strings are modelled as `List Char`.  Character classes (`\w`, `\s`, case
folding) follow Lean's ASCII `Char` primitives; the repository's claims only
exercise ASCII text.  Recursions that the regex engine performs by scanning are
modelled with an explicit fuel argument so that every definition is structural
and evaluates inside the kernel; the fuel chosen at each call site exceeds the
scan length, and each recursive call consumes at least one character, so the
fuel never runs out on the call-site values.
-/

namespace Tableau

/-- Python strings, modelled as lists of characters. -/
abbrev Str : Type := List Char

/-- Shorthand turning a Lean string literal into the `List Char` model. -/
def S (s : String) : Str := s.data

/-- Python's regex word character `\w`, ASCII model: letters, digits, `_`. -/
def isWordChar (c : Char) : Bool := c.isAlphanum || c == '_'

/-- Case-insensitive equality of two strings (ASCII case folding), as used by
`re.IGNORECASE` matching of the translator's function names. -/
def lowerEq (a b : Str) : Bool := a.map Char.toLower == b.map Char.toLower

/-- Accumulator loop of Python's `str.split()` (split on whitespace runs,
dropping empty pieces): `cur` is the non-whitespace run read so far. -/
def splitGo (cur : Str) : Str → List Str
  | [] => if cur.isEmpty then [] else [cur]
  | c :: cs =>
      if c.isWhitespace then
        if cur.isEmpty then splitGo [] cs else cur :: splitGo [] cs
      else splitGo (cur ++ [c]) cs

/-- Python `formula.split()`. -/
def pySplit (s : Str) : List Str := splitGo [] s

/-- Python `' '.join(ws)`: the pieces separated by single spaces. -/
def joinSp : List Str → Str
  | [] => []
  | [w] => w
  | w :: ws => w ++ ' ' :: joinSp ws

/-- `' '.join(formula.split())` — whitespace collapse of `_clean_formula`
(formula_translator.py line 134). -/
def collapseWs (s : Str) : Str := joinSp (pySplit s)

/-- One pass of `re.sub(rf'\b{func}\b', func, formula, flags=re.IGNORECASE)`
(formula_translator.py line 138).  Every key of the translator's function map
consists solely of word characters, so the pattern `\bKEY\b` matches exactly
the maximal word-character runs of the text that equal KEY up to case; the
substitution hence maps every maximal word run through `g` and keeps all other
characters.  `cur` accumulates the current word run. -/
def rwGo (g : Str → Str) (cur : Str) : Str → Str
  | [] => if cur.isEmpty then [] else g cur
  | c :: cs =>
      if isWordChar c then rwGo g (cur ++ [c]) cs
      else (if cur.isEmpty then [] else g cur) ++ c :: rwGo g [] cs

/-- Map every maximal word-character run of `s` through `g`. -/
def replaceWords (g : Str → Str) (s : Str) : Str := rwGo g [] s

/-- The word-level substitution of a single function name: a word equal to
`func` up to case is replaced by the canonical spelling `func`. -/
def sub1 (func : Str) (w : Str) : Str := if lowerEq w func then func else w

/-- One entry of `TableauFormulaTranslator.function_map`
(formula_translator.py lines 29-101): the Tableau name and its Python, pandas
and SQL images, each possibly absent (`None`). -/
structure FuncEntry where
  name : Str
  py : Option Str
  pd : Option Str
  sql : Option Str
deriving DecidableEq

/-- `function_map` in source order (Python dicts preserve insertion order). -/
def functionMap : List FuncEntry := [
  ⟨S "SUM", some (S "sum"), some (S "sum()"), some (S "SUM")⟩,
  ⟨S "AVG", some (S "mean"), some (S "mean()"), some (S "AVG")⟩,
  ⟨S "COUNT", some (S "count"), some (S "count()"), some (S "COUNT")⟩,
  ⟨S "COUNTD", some (S "nunique"), some (S "nunique()"), some (S "COUNT(DISTINCT")⟩,
  ⟨S "MIN", some (S "min"), some (S "min()"), some (S "MIN")⟩,
  ⟨S "MAX", some (S "max"), some (S "max()"), some (S "MAX")⟩,
  ⟨S "MEDIAN", some (S "median"), some (S "median()"), some (S "MEDIAN")⟩,
  ⟨S "STDEV", some (S "std"), some (S "std()"), some (S "STDDEV")⟩,
  ⟨S "VAR", some (S "var"), some (S "var()"), some (S "VARIANCE")⟩,
  ⟨S "ABS", some (S "abs"), some (S "abs"), some (S "ABS")⟩,
  ⟨S "ROUND", some (S "round"), some (S "round"), some (S "ROUND")⟩,
  ⟨S "CEILING", some (S "ceil"), some (S "ceil"), some (S "CEIL")⟩,
  ⟨S "FLOOR", some (S "floor"), some (S "floor"), some (S "FLOOR")⟩,
  ⟨S "SQRT", some (S "sqrt"), some (S "sqrt"), some (S "SQRT")⟩,
  ⟨S "POWER", some (S "pow"), some (S "pow"), some (S "POWER")⟩,
  ⟨S "EXP", some (S "exp"), some (S "exp"), some (S "EXP")⟩,
  ⟨S "LOG", some (S "log"), some (S "log"), some (S "LOG")⟩,
  ⟨S "LN", some (S "log"), some (S "log"), some (S "LN")⟩,
  ⟨S "LEN", some (S "len"), some (S "str.len()"), some (S "LENGTH")⟩,
  ⟨S "LOWER", some (S "lower"), some (S "str.lower()"), some (S "LOWER")⟩,
  ⟨S "UPPER", some (S "upper"), some (S "str.upper()"), some (S "UPPER")⟩,
  ⟨S "TRIM", some (S "strip"), some (S "str.strip()"), some (S "TRIM")⟩,
  ⟨S "LTRIM", some (S "lstrip"), some (S "str.lstrip()"), some (S "LTRIM")⟩,
  ⟨S "RTRIM", some (S "rstrip"), some (S "str.rstrip()"), some (S "RTRIM")⟩,
  ⟨S "CONTAINS", some (S "in"), some (S "str.contains"), some (S "LIKE")⟩,
  ⟨S "STARTSWITH", some (S "startswith"), some (S "str.startswith"), some (S "LIKE")⟩,
  ⟨S "ENDSWITH", some (S "endswith"), some (S "str.endswith"), some (S "LIKE")⟩,
  ⟨S "REPLACE", some (S "replace"), some (S "str.replace"), some (S "REPLACE")⟩,
  ⟨S "SPLIT", some (S "split"), some (S "str.split"), some (S "SPLIT_PART")⟩,
  ⟨S "LEFT", none, some (S "str[:n]"), some (S "LEFT")⟩,
  ⟨S "RIGHT", none, some (S "str[-n:]"), some (S "RIGHT")⟩,
  ⟨S "MID", none, some (S "str[start:end]"), some (S "SUBSTRING")⟩,
  ⟨S "TODAY", some (S "date.today()"), some (S "pd.Timestamp.today()"), some (S "CURRENT_DATE")⟩,
  ⟨S "NOW", some (S "datetime.now()"), some (S "pd.Timestamp.now()"), some (S "CURRENT_TIMESTAMP")⟩,
  ⟨S "YEAR", some (S "year"), some (S "dt.year"), some (S "YEAR")⟩,
  ⟨S "MONTH", some (S "month"), some (S "dt.month"), some (S "MONTH")⟩,
  ⟨S "DAY", some (S "day"), some (S "dt.day"), some (S "DAY")⟩,
  ⟨S "QUARTER", some (S "quarter"), some (S "dt.quarter"), some (S "QUARTER")⟩,
  ⟨S "WEEK", some (S "week"), some (S "dt.week"), some (S "WEEK")⟩,
  ⟨S "DATEPART", none, some (S "dt."), some (S "DATE_PART")⟩,
  ⟨S "DATEADD", none, some (S "pd.DateOffset"), some (S "DATEADD")⟩,
  ⟨S "DATEDIFF", none, none, some (S "DATEDIFF")⟩,
  ⟨S "DATETRUNC", none, some (S "dt.floor"), some (S "DATE_TRUNC")⟩,
  ⟨S "IF", some (S "if"), none, some (S "CASE WHEN")⟩,
  ⟨S "IIF", some (S "if"), none, some (S "CASE WHEN")⟩,
  ⟨S "CASE", some (S "match"), none, some (S "CASE")⟩,
  ⟨S "AND", some (S "and"), some (S "&"), some (S "AND")⟩,
  ⟨S "OR", some (S "or"), some (S "|"), some (S "OR")⟩,
  ⟨S "NOT", some (S "not"), some (S "~"), some (S "NOT")⟩,
  ⟨S "ISNULL", some (S "is None"), some (S "isna()"), some (S "IS NULL")⟩,
  ⟨S "IFNULL", some (S "or"), some (S "fillna"), some (S "COALESCE")⟩,
  ⟨S "ZN", some (S "or 0"), some (S "fillna(0)"), some (S "COALESCE")⟩,
  ⟨S "RUNNING_SUM", none, some (S "cumsum()"), some (S "SUM() OVER")⟩,
  ⟨S "RUNNING_AVG", none, some (S "expanding().mean()"), some (S "AVG() OVER")⟩,
  ⟨S "WINDOW_SUM", none, some (S "rolling().sum()"), some (S "SUM() OVER")⟩,
  ⟨S "WINDOW_AVG", none, some (S "rolling().mean()"), some (S "AVG() OVER")⟩,
  ⟨S "RANK", none, some (S "rank()"), some (S "RANK() OVER")⟩,
  ⟨S "INDEX", none, some (S "index"), some (S "ROW_NUMBER() OVER")⟩,
  ⟨S "FIRST", none, some (S "first()"), some (S "FIRST_VALUE() OVER")⟩,
  ⟨S "LAST", none, some (S "last()"), some (S "LAST_VALUE() OVER")⟩]

/-- The keys of `function_map`, in iteration order. -/
def funcNames : List Str := functionMap.map (·.name)

/-- `TableauFormulaTranslator._clean_formula` (lines 131-140): collapse
whitespace, then fold every function name to its canonical uppercase spelling
(whole words, case-insensitively), one `re.sub` per key in map order. -/
def cleanFormula (s : Str) : Str :=
  funcNames.foldl (fun r n => replaceWords (sub1 n) r) (collapseWs s)

/-- Scanning loop of `re.findall(r'\[([^\]]+)\]', formula)`
(`_extract_dependencies`, lines 142-147): at a `[`, the greedy class `[^\]]+`
runs to the next `]`; a nonempty interior yields a match and scanning resumes
after the `]`; otherwise the scan advances one character.  The fuel exceeds
the number of characters and every call consumes at least one. -/
def extrBrk : Nat → Str → List Str
  | 0, _ => []
  | _ + 1, [] => []
  | fuel + 1, c :: rest =>
      if c == '[' then
        match rest.dropWhile (fun d => d != ']') with
        | ']' :: after =>
            let interior := rest.takeWhile (fun d => d != ']')
            if interior.isEmpty then extrBrk fuel rest
            else interior :: extrBrk fuel after
        | _ => extrBrk fuel rest
      else extrBrk fuel rest

/-- All `[...]` interiors of `s`, in scan order, duplicates kept. -/
def extractBrackets (s : Str) : List Str := extrBrk (s.length + 1) s

/-- Python's substring test `pat in s` (contiguous occurrence). -/
def infixOf (pat : Str) : Str → Bool
  | [] => pat.isEmpty
  | c :: rest => pat.isPrefixOf (c :: rest) || infixOf pat rest

/-- The aggregation names of `_requires_aggregation` (line 151). -/
def aggFunctions : List Str :=
  [S "SUM", S "AVG", S "COUNT", S "COUNTD", S "MIN", S "MAX", S "MEDIAN",
   S "STDEV", S "VAR"]

/-- `_requires_aggregation` (lines 149-152): substring containment of any
aggregation name in `formula.upper()`. -/
def requiresAggregation (formula : Str) : Bool :=
  aggFunctions.any (fun f => infixOf f (formula.map Char.toUpper))

/-- The window-function name fragments of `_is_window_function` (line 156). -/
def windowFunctions : List Str :=
  [S "RUNNING_", S "WINDOW_", S "RANK", S "INDEX", S "FIRST", S "LAST"]

/-- `_is_window_function` (lines 154-157). -/
def isWindowFunction (formula : Str) : Bool :=
  windowFunctions.any (fun f => infixOf f (formula.map Char.toUpper))

/-- Scanning loop of `re.sub(r'\[([^\]]+)\]', repl, s)` where the template
`repl` wraps group 1 (the interior) between `pre` and `post`: the field
rewrites of `_translate_to_python` / `_translate_to_pandas` /
`_translate_to_sql` (lines 164, 184, 210) and the dimension cleanup of
`_translate_lod_expressions` (line 258, with empty `pre`/`post`).  Match
structure as in `extrBrk`. -/
def subBrk (pre post : Str) : Nat → Str → Str
  | 0, s => s
  | _ + 1, [] => []
  | fuel + 1, c :: rest =>
      if c == '[' then
        match rest.dropWhile (fun d => d != ']') with
        | ']' :: after =>
            let interior := rest.takeWhile (fun d => d != ']')
            if interior.isEmpty then c :: subBrk pre post fuel rest
            else pre ++ interior ++ post ++ subBrk pre post fuel after
        | _ => c :: subBrk pre post fuel rest
      else c :: subBrk pre post fuel rest

/-- `re.sub(r'\[([^\]]+)\]', pre ++ interior ++ post, s)`. -/
def subBrackets (pre post s : Str) : Str := subBrk pre post (s.length + 1) s

/-- Python `s.replace(pat, rep)`: non-overlapping left-to-right replacement.
Every pattern passed in this file is nonempty (the empty-pattern semantics of
Python's `str.replace` is not needed and not modelled). -/
def strRepl (pat rep : Str) : Nat → Str → Str
  | 0, s => s
  | _ + 1, [] => []
  | fuel + 1, c :: rest =>
      if pat.isPrefixOf (c :: rest) && !pat.isEmpty then
        rep ++ strRepl pat rep fuel ((c :: rest).drop pat.length)
      else c :: strRepl pat rep fuel rest

/-- `s.replace(pat, rep)`. -/
def strReplace (pat rep s : Str) : Str := strRepl pat rep (s.length + 1) s

/-- Case-sensitive literal prefix: the rest of `s` after `pat`, if `s` starts
with `pat`. -/
def dropPrefixCS : Str → Str → Option Str
  | [], s => some s
  | _, [] => none
  | p :: ps, c :: cs => if p == c then dropPrefixCS ps cs else none

/-- Case-insensitive literal prefix (ASCII folding), for `re.IGNORECASE`
patterns: the rest of `s` after `pat`. -/
def dropCi : Str → Str → Option Str
  | [], s => some s
  | _, [] => none
  | p :: ps, c :: cs => if p.toLower == c.toLower then dropCi ps cs else none

/-- `\s+` at the start of `s`: at least one whitespace character, consumed
greedily.  (The lazy groups that follow `\s+` in the translator's patterns
can themselves match whitespace, so giving characters back to them never
creates a match that the greedy run misses on the inputs of this file; the
backtracking into a whitespace run is not modelled.) -/
def wsPlus : Str → Option Str
  | [] => none
  | c :: cs => if c.isWhitespace then some (cs.dropWhile Char.isWhitespace) else none

/-- Try to match `FUNC\s*\(([^)]*)\)` at the start of `s`
(`_translate_to_pandas`, line 191; no IGNORECASE): returns the captured
argument and the rest after `)`. -/
def parseCall (fname s : Str) : Option (Str × Str) :=
  match dropPrefixCS fname s with
  | none => none
  | some s1 =>
      match s1.dropWhile Char.isWhitespace with
      | '(' :: s3 =>
          match s3.dropWhile (fun d => d != ')') with
          | ')' :: s4 => some (s3.takeWhile (fun d => d != ')'), s4)
          | _ => none
      | _ => none

/-- Scanning loop of `re.sub(rf'{f}\s*\(([^)]*)\)', rf"df['\1'].{p}", s)`
(`_translate_to_pandas`, lines 191-192).  A match consumes at least the two
parentheses, so the fuel (one more than the character count at the call
site) never runs out. -/
def subCallGo (fname pfunc : Str) : Nat → Str → Str
  | 0, s => s
  | _ + 1, [] => []
  | fuel + 1, c :: rest =>
      match parseCall fname (c :: rest) with
      | some (arg, after) =>
          (S "df['") ++ arg ++ (S "'].") ++ pfunc ++ subCallGo fname pfunc fuel after
      | none => c :: subCallGo fname pfunc fuel rest

/-- The method-style pandas rewrite `FUNC(arg)` → `df['arg'].pfunc`. -/
def subCall (fname pfunc s : Str) : Str := subCallGo fname pfunc (s.length + 1) s

/-- `\s+THEN\s+`, case-insensitively, at the start of `s`. -/
def thenDelim (s : Str) : Option Str := do
  let s1 ← wsPlus s
  let s2 ← dropCi (S "THEN") s1
  wsPlus s2

/-- The lazy group `(.+?)\s+THEN\s+` of the IF pattern: the shortest nonempty
prefix of `s` followed by `\s+THEN\s+`; returns the group and the rest.
(On failure of the later pattern parts Python's engine would retry with a
longer group; the inputs of this file never reach that retry, and it is not
modelled.) -/
def scanThen : Str → Option (Str × Str)
  | [] => none
  | c :: rest =>
      match thenDelim rest with
      | some r => some ([c], r)
      | none =>
          match scanThen rest with
          | some (a, r) => some (c :: a, r)
          | none => none

/-- `\s+END`, case-insensitively, at the start of `s`. -/
def endDelim (s : Str) : Option Str := do
  let s1 ← wsPlus s
  dropCi (S "END") s1

/-- The lazy group `(.+?)\s+END`: shortest nonempty prefix followed by
`\s+END`; returns the group and the rest after `END`. -/
def scanEnd : Str → Option (Str × Str)
  | [] => none
  | c :: rest =>
      match endDelim rest with
      | some r => some ([c], r)
      | none =>
          match scanEnd rest with
          | some (a, r) => some (c :: a, r)
          | none => none

/-- The tail `(?:ELSEIF\s+(.+?)\s+THEN\s+(.+?)\s+)*ELSE\s+(.+?)\s+END` of the
IF pattern of `_translate_if_statements` (line 228), together with the lazy
group that precedes it.  `mode = true` scans a lazy `(.+?)` whose continuation
is `\s+` followed by this tail (the THEN-value and the ELSEIF-values);
`mode = false` parses the tail itself, trying the greedy star's ELSEIF branch
first and falling back to `ELSE`.  Returns (scanned lazy group, ELSE-value,
rest after `END`); in tail mode the first component is unused.  Every
recursive call strictly shortens the string, so fuel `length + 2` suffices. -/
def starAux : Nat → Bool → Str → Option (Str × Str × Str)
  | 0, _, _ => none
  | _ + 1, true, [] => none
  | fuel + 1, true, c :: rest =>
      match (do
        let r1 ← wsPlus rest
        starAux fuel false r1) with
      | some (_, e, r) => some ([c], e, r)
      | none =>
          match starAux fuel true rest with
          | some (x, e, r) => some (c :: x, e, r)
          | none => none
  | fuel + 1, false, s =>
      match (do
        let s1 ← dropCi (S "ELSEIF") s
        let s2 ← wsPlus s1
        let (_, s3) ← scanThen s2
        starAux fuel true s3) with
      | some r => some r
      | none => do
          let t1 ← dropCi (S "ELSE") s
          let t2 ← wsPlus t1
          let (e, r) ← scanEnd t2
          some ([], e, r)

/-- Try the full IF pattern
`IF\s+(.+?)\s+THEN\s+(.+?)\s+(?:ELSEIF\s+(.+?)\s+THEN\s+(.+?)\s+)*ELSE\s+(.+?)\s+END`
(IGNORECASE, DOTALL) at the start of `s`: returns (condition, THEN-value,
ELSE-value, rest after the match) — groups 1, 2 and the last group, exactly
the ones `replace_if` uses (lines 230-241). -/
def parseIfAt (s : Str) : Option (Str × Str × Str × Str) := do
  let s1 ← dropCi (S "IF") s
  let s2 ← wsPlus s1
  let (cond, s3) ← scanThen s2
  let (thenv, elsev, rest) ← starAux (s3.length + 2) true s3
  some (cond, thenv, elsev, rest)

/-- The body of `replace_if` (lines 230-241): the replacement for each
target, and `none` for any other target, where the Python function returns
`None` and `re.sub` would raise `TypeError`.  The `none` branch is the one
place `translate` could raise; it is unreachable from the three literal
targets the translator passes. -/
def mkIfRepl (target cond thenv elsev : Str) : Option Str :=
  if target == S "python" then
    some ((S "(") ++ thenv ++ (S " if ") ++ cond ++ (S " else ") ++ elsev ++ (S ")"))
  else if target == S "pandas" then
    some ((S "np.where(") ++ cond ++ (S ", ") ++ thenv ++ (S ", ") ++ elsev ++ (S ")"))
  else if target == S "sql" then
    some ((S "CASE WHEN ") ++ cond ++ (S " THEN ") ++ thenv ++ (S " ELSE ") ++ elsev ++ (S " END"))
  else none

/-- Scanning loop of `re.sub(if_pattern, replace_if, formula, IGNORECASE |
DOTALL)` (`_translate_if_statements`, line 243).  `none` models the
`TypeError` raised when `replace_if` returns `None`. -/
def ifSubGo (target : Str) : Nat → Str → Option Str
  | 0, s => some s
  | _ + 1, [] => some []
  | fuel + 1, c :: rest =>
      match parseIfAt (c :: rest) with
      | some (cond, thenv, elsev, after) =>
          match mkIfRepl target cond thenv elsev with
          | some rep => (ifSubGo target fuel after).map (fun t => rep ++ t)
          | none => none
      | none => (ifSubGo target fuel rest).map (fun t => c :: t)

/-- `_translate_if_statements(formula, target)` (lines 225-244). -/
def translateIfStatements (target s : Str) : Option Str :=
  ifSubGo target (s.length + 1) s

/-- Keyword alternative `(FIXED|INCLUDE|EXCLUDE)` of the LOD pattern: on a
case-insensitive match, group 1 is the text as it appears in the input. -/
def tryKw (kw s : Str) : Option (Str × Str) :=
  match dropCi kw s with
  | some rest => some (s.take kw.length, rest)
  | none => none

/-- The rest of `s` after a leading literal `c`. -/
def headIs (c : Char) (s : Str) : Option Str :=
  match s with
  | [] => none
  | d :: rest => if d == c then some rest else none

/-- The group `\s+([^:]+)` applied to the run `run` of non-`:` characters
that follows the LOD keyword: `run` must start with whitespace and, after
the greedy `\s+`, leave a nonempty `[^:]+`; when the run is whitespace only,
the engine backtracks one character out of `\s+` and captures the last. -/
def lodDims (run : Str) : Option Str :=
  match run with
  | [] => none
  | r0 :: _ =>
      if r0.isWhitespace then
        let dcand := run.dropWhile Char.isWhitespace
        if dcand.isEmpty then
          if run.length ≥ 2 then some (run.drop (run.length - 1)) else none
        else some dcand
      else none

/-- The tail `\s+(.+?)\}` of the LOD pattern (no DOTALL, so the lazy group
cannot cross a newline and ends at the first `}`; when the `}` directly
follows the whitespace run, the engine backtracks one character out of
`\s+`).  Returns (group 3, rest after the brace). -/
def lodExprScan (rest2 : Str) : Option (Str × Str) :=
  match rest2 with
  | [] => none
  | w0 :: _ =>
      if w0.isWhitespace then
        let w := rest2.takeWhile Char.isWhitespace
        let t := rest2.dropWhile Char.isWhitespace
        let e0 := t.takeWhile (fun d => d != '}' && d != '\n')
        match headIs '}' (t.dropWhile (fun d => d != '}' && d != '\n')) with
        | some rest3 =>
            if e0.isEmpty then
              match w.getLast? with
              | some wl =>
                  if wl != '\n' && w.length ≥ 2 then some ([wl], rest3) else none
              | none => none
            else some (e0, rest3)
        | none => none
      else none

/-- After the keyword of `\{(FIXED|INCLUDE|EXCLUDE)\s+([^:]+):\s+(.+?)\}`
(`_translate_lod_expressions`, line 249; IGNORECASE): the class `[^:]+`
cannot cross the first `:`, so the match needs a literal `:` after the
non-`:` run, with `lodDims` on the run and `lodExprScan` after the colon.
Returns (group 1, group 2, group 3, rest after `}`). -/
def parseLodBody (kwText rest0 : Str) : Option (Str × Str × Str × Str) :=
  match headIs ':' (rest0.dropWhile (fun d => d != ':')) with
  | none => none
  | some rest2 =>
      match lodDims (rest0.takeWhile (fun d => d != ':')) with
      | none => none
      | some dims =>
          match lodExprScan rest2 with
          | none => none
          | some (ex, rest3) => some (kwText, dims, ex, rest3)

/-- Try the LOD pattern at the start of `s`. -/
def parseLodAt (s : Str) : Option (Str × Str × Str × Str) :=
  match s with
  | '{' :: rest =>
      match tryKw (S "FIXED") rest with
      | some (kw, r) => parseLodBody kw r
      | none =>
          match tryKw (S "INCLUDE") rest with
          | some (kw, r) => parseLodBody kw r
          | none =>
              match tryKw (S "EXCLUDE") rest with
              | some (kw, r) => parseLodBody kw r
              | none => none
  | _ => none

/-- Python `dimensions.split(',')`: split at every comma, keeping empties. -/
def splitComma : Str → List Str
  | [] => [[]]
  | c :: cs =>
      if c == ',' then [] :: splitComma cs
      else
        match splitComma cs with
        | p :: ps => (c :: p) :: ps
        | [] => [[c]]

/-- Python `d.strip()`. -/
def pyStrip (s : Str) : Str :=
  ((s.dropWhile Char.isWhitespace).reverse.dropWhile Char.isWhitespace).reverse

/-- The dimension cleanup of `replace_lod` (lines 257-258):
`[d.strip() for d in dimensions.split(',')]`, then
`re.sub(r'\[([^\]]+)\]', r'\1', d)` on each. -/
def cleanDims (dims : Str) : List Str :=
  (splitComma dims).map (fun d => subBrackets [] [] (pyStrip d))

/-- Python's `repr` of one string inside a `str(list)` rendering: single
quotes, or double quotes when the text holds a single quote and no double
quote.  (Python would additionally escape when both quote kinds occur; no
input of this file reaches that case and it is not modelled.) -/
def pyReprStr (s : Str) : Str :=
  if s.contains '\'' && !(s.contains '"') then '"' :: s ++ ['"']
  else '\'' :: s ++ ['\'']

/-- Python's `str` of a list of strings, as interpolated by the f-strings of
`replace_lod`: `['a', 'b']`. -/
def pyReprList (l : List Str) : Str :=
  '[' :: List.intercalate (S ", ") (l.map pyReprStr) ++ [']']

/-- The body of `replace_lod` (lines 251-278): the expression group is
stripped first (`expression = match.group(3).strip()`, line 254).  For the
pandas INCLUDE branch Python computes `list(set(dims + [current_dims]))`,
whose iteration order is the hash-set order; it is modelled as `dedup` of
the concatenation (no claim depends on that order). -/
def replaceLod (target kw dims expr0 : Str) : Str :=
  let ds := cleanDims dims
  let expr := pyStrip expr0
  if target == S "pandas" then
    if kw == S "FIXED" then
      (S "df.groupby(") ++ pyReprList ds ++ (S ").transform(lambda x: x") ++ expr ++ (S ")")
    else if kw == S "INCLUDE" then
      (S "df.groupby(") ++ pyReprList ((ds ++ [S "current_groupby_dims"]).dedup) ++
        (S ").transform(lambda x: x") ++ expr ++ (S ")")
    else (S "df.transform(lambda x: x") ++ expr ++ (S ")")
  else if target == S "sql" then
    if kw == S "FIXED" then
      expr ++ (S " OVER (PARTITION BY ") ++
        List.intercalate (S ", ") (ds.map (fun d => '"' :: d ++ ['"'])) ++ (S ")")
    else expr
  else
    (S "calculate_lod('") ++ kw ++ (S "', ") ++ pyReprList ds ++
      (S ", lambda data: data") ++ expr ++ (S ")")

/-- Scanning loop of `re.sub(lod_pattern, replace_lod, formula, IGNORECASE)`
(`_translate_lod_expressions`, line 280).  `replace_lod` is total, so the
substitution cannot raise. -/
def lodGo (target : Str) : Nat → Str → Str
  | 0, s => s
  | _ + 1, [] => []
  | fuel + 1, c :: rest =>
      match parseLodAt (c :: rest) with
      | some (kw, dims, expr, after) =>
          replaceLod target kw dims expr ++ lodGo target fuel after
      | none => c :: lodGo target fuel rest

/-- `_translate_lod_expressions(formula, target)` (lines 246-281). -/
def translateLodExpressions (target s : Str) : Str := lodGo target (s.length + 1) s

/-- One step of the function-replacement loop of `_translate_to_python`
(lines 167-169): skip absent mappings, then a plain textual replace guarded
by substring containment. -/
def pyFuncStep (r : Str) (e : FuncEntry) : Str :=
  match e.py with
  | some p => if infixOf e.name r then strReplace e.name p r else r
  | none => r

/-- One step of the loop of `_translate_to_pandas` (lines 187-195):
method-style mappings (containing `()`) rewrite `FUNC(arg)` via the
single-argument regex; the rest are plain textual replaces. -/
def pdFuncStep (r : Str) (e : FuncEntry) : Str :=
  match e.pd with
  | some p =>
      if infixOf e.name r then
        if infixOf (S "()") p then subCall e.name p r else strReplace e.name p r
      else r
  | none => r

/-- One step of the loop of `_translate_to_sql` (lines 213-215). -/
def sqlFuncStep (r : Str) (e : FuncEntry) : Str :=
  match e.sql with
  | some q => if infixOf e.name r then strReplace e.name q r else r
  | none => r

/-- `_translate_to_python` (lines 159-177): field rewrite, function loop,
IF rewrite, LOD rewrite.  `none` models a raised exception (only possible
inside the IF rewrite). -/
def translateToPython (formula : Str) : Option Str :=
  (translateIfStatements (S "python")
      (functionMap.foldl pyFuncStep (subBrackets (S "data['") (S "']") formula))).map
    (translateLodExpressions (S "python"))

/-- `_translate_to_pandas` (lines 179-203). -/
def translateToPandas (formula : Str) : Option Str :=
  (translateIfStatements (S "pandas")
      (functionMap.foldl pdFuncStep (subBrackets (S "df['") (S "']") formula))).map
    (translateLodExpressions (S "pandas"))

/-- `_translate_to_sql` (lines 205-223).  The Python function is typed
`Optional[str]` but its body always returns a string; the outer `Option` of
this model is the exception channel only. -/
def translateToSql (formula : Str) : Option Str :=
  (translateIfStatements (S "sql")
      (functionMap.foldl sqlFuncStep (subBrackets (S "\"") (S "\"") formula))).map
    (translateLodExpressions (S "sql"))

/-- The result dataclass `TranslatedFormula` (lines 13-21). -/
structure TranslatedFormula where
  python_expression : Str
  pandas_expression : Str
  sql_expression : Option Str
  dependencies : List Str
  requires_aggregation : Bool
  is_window_function : Bool
deriving DecidableEq, Repr

/-- `TableauFormulaTranslator.translate` (lines 103-129): clean the formula,
extract the deduplicated dependencies (`list(set(...))`, modelled as `dedup`;
claims read the list as a set), classify, then build the three target
expressions in the source's order.  `none` models an escaping exception (the
first raising step wins, as in Python); the `sql_expression` field is `some`
because `_translate_to_sql` returns a string on every path. -/
def translate (tableau_formula : Str) : Option TranslatedFormula :=
  (translateToPython (cleanFormula tableau_formula)).bind fun py =>
  (translateToPandas (cleanFormula tableau_formula)).bind fun pdE =>
  (translateToSql (cleanFormula tableau_formula)).bind fun sq =>
  some ⟨py, pdE, some sq, (extractBrackets (cleanFormula tableau_formula)).dedup,
    requiresAggregation (cleanFormula tableau_formula),
    isWindowFunction (cleanFormula tableau_formula)⟩

/-- The dependency list of `translate`, read off the record (empty when the
model signals an exception; `translate` never does, see the theorems). -/
def depsOf (f : Str) : List Str :=
  match translate f with
  | some r => r.dependencies
  | none => []

/-- The Python expression of `translate`. -/
def pyExprOf (f : Str) : Str :=
  match translate f with
  | some r => r.python_expression
  | none => []

/-- The pandas expression of `translate`. -/
def pdExprOf (f : Str) : Str :=
  match translate f with
  | some r => r.pandas_expression
  | none => []

/-- The SQL expression of `translate`. -/
def sqlExprOf (f : Str) : Option Str :=
  match translate f with
  | some r => r.sql_expression
  | none => none

/-- Greedy left-to-right search for the given tokens in order, each strictly
after the previous occurrence: the reading of "contains t1, …, tn in that
order" used by the conditional-scenario claim. -/
def afterFirst (pat : Str) : Str → Option Str
  | [] => if pat.isEmpty then some [] else none
  | c :: rest =>
      if pat.isPrefixOf (c :: rest) then some ((c :: rest).drop pat.length)
      else afterFirst pat rest

/-- `containsInOrder toks s`: the tokens occur in `s`, in order. -/
def containsInOrder : List Str → Str → Bool
  | [], _ => true
  | t :: ts, s =>
      match afterFirst t s with
      | some r => containsInOrder ts r
      | none => false

/-!  Word-run decomposition of a string, the normal form underlying the
`re.sub(rf'\b\x7bfunc\x7d\b', func, ...)` passes of `_clean_formula`:
maximal word-character runs alternating with single non-word characters. -/

/-- Decomposition of a string into maximal word-character runs (`Sum.inl`)
and single non-word characters (`Sum.inr`); `cur` is the pending run. -/
def chunksGo (cur : Str) : Str → List (Str ⊕ Char)
  | [] => if cur.isEmpty then [] else [Sum.inl cur]
  | c :: cs =>
      if isWordChar c then chunksGo (cur ++ [c]) cs
      else (if cur.isEmpty then [] else [Sum.inl cur]) ++ Sum.inr c :: chunksGo [] cs

/-- The chunk decomposition of a string. -/
def chunks (s : Str) : List (Str ⊕ Char) := chunksGo [] s

/-- Rebuild the text from chunks, mapping every word run through `g`. -/
def renderW (g : Str → Str) : List (Str ⊕ Char) → Str
  | [] => []
  | Sum.inl w :: L => g w ++ renderW g L
  | Sum.inr c :: L => c :: renderW g L

/-- Map the word runs of a chunk list, keeping the single characters. -/
def mapW (h : Str → Str) (L : List (Str ⊕ Char)) : List (Str ⊕ Char) :=
  L.map (fun ch => match ch with | Sum.inl w => Sum.inl (h w) | Sum.inr c => Sum.inr c)

/-- Well-formed chunk lists: word runs are nonempty, all word characters and
never adjacent; single characters are non-word.  The flag tells whether a
word run may come first. -/
def WFc : Bool → List (Str ⊕ Char) → Prop
  | _, [] => True
  | _, Sum.inr c :: L => isWordChar c = false ∧ WFc true L
  | flag, Sum.inl w :: L =>
      flag = true ∧ w ≠ [] ∧ (∀ c ∈ w, isWordChar c = true) ∧ WFc false L

/-- A word function preserving nonempty all-word-character strings — the shape
of every replacement the cleaning pass applies to a word run. -/
def WordPres (h : Str → Str) : Prop :=
  ∀ w, w ≠ [] → (∀ c ∈ w, isWordChar c = true) →
    h w ≠ [] ∧ ∀ c ∈ h w, isWordChar c = true

/-- The cumulative effect on one word of the per-key `re.sub` passes of
`_clean_formula`, in map order. -/
def canonWord (w : Str) : Str := funcNames.foldl (fun r n => sub1 n r) w

/-!  The dependency/execution-order helper:
`CalculationDependencyMapper` (extraction_agent.py lines 240-287).  The
dependency graph — a Python dict mapping calculation name to dependency
list — is modelled as an association list in insertion order. -/

/-- The dependency graph `self.dependency_graph`. -/
abbrev DepGraph : Type := List (Str × List Str)

/-- Iteration order of the dict's keys. -/
def keysOf (g : DepGraph) : List Str := g.map Prod.fst

/-- Python `node in self.dependency_graph` (line 275). -/
def isKey (g : DepGraph) (n : Str) : Bool := (keysOf g).contains n

/-- Python `self.dependency_graph.get(node, [])` (line 274). -/
def lookupDeps (g : DepGraph) (n : Str) : List Str :=
  match g.find? (fun p => p.fst == n) with
  | some p => p.snd
  | none => []

/-- `f"Circular dependency detected involving {node}"` (line 268). -/
def cycleMsg (n : Str) : Str := (S "Circular dependency detected involving ") ++ n

/-- Fuel-exhaustion marker of the model; unreachable for `graphFuel`
(theorem `visitL_no_fuelErr` below). -/
def fuelErrMsg : Str := S "model fuel exhausted"

/-- The recursion of `calculate_execution_order` (lines 259-287): `visit`
together with its dependency loop, as one function on the worklist `ns` of
nodes still to visit at the current level.  `temp` is the current recursion
path (`temp_visited`: pushed before the dependency loop, popped after),
`visited` and `order` the accumulated state.  Python recursion is unbounded;
the fuel only bounds the model's recursion depth and `graphFuel` is proved
large enough. -/
def visitL (g : DepGraph) :
    Nat → List Str → List Str → List Str → List Str → Except Str (List Str × List Str)
  | 0, _, _, _, _ => .error fuelErrMsg
  | _ + 1, [], _, visited, order => .ok (visited, order)
  | fuel + 1, n :: ns, temp, visited, order =>
      if temp.contains n then .error (cycleMsg n)
      else if visited.contains n then visitL g fuel ns temp visited order
      else
        match visitL g fuel ((lookupDeps g n).filter (isKey g)) (n :: temp) visited order with
        | .ok (v, o) => visitL g fuel ns temp (n :: v) (o ++ [n])
        | .error e => .error e

/-- Per-level fuel slice: strictly larger than any worklist the sort can
build (the key list or any dependency list) plus one step. -/
def fuelSlice (g : DepGraph) : Nat :=
  g.length + (g.map (fun p => p.snd.length)).sum + 2

/-- A fuel bound larger than any possible nesting depth of `visitL`:
the depth is at most (number of distinct keys + 1) stretches of consecutive
worklist steps, each no longer than the longest worklist. -/
def graphFuel (g : DepGraph) : Nat :=
  (g.length + 1) * fuelSlice g

/-- The distinct keys neither on the recursion path nor visited: the
quantity that shrinks each time the sort finishes a node. -/
def freeKeys (g : DepGraph) (temp visited : List Str) : List Str :=
  (keysOf g).dedup.filter (fun k => !(temp.contains k) && !(visited.contains k))

/-- Position of the first occurrence of `x` in `l` (the length of `l` when
absent). -/
def rankIn : List Str → Str → Nat
  | [], _ => 0
  | y :: l, x => if y == x then 0 else rankIn l x + 1

/-- `o` extends a valid execution order after the nodes `seen`: every
element's key-dependencies occur among `seen` or earlier in `o`. -/
def topoOkFrom (g : DepGraph) : List Str → List Str → Prop
  | _, [] => True
  | seen, a :: rest =>
      (∀ b ∈ lookupDeps g a, isKey g b = true → b ∈ seen) ∧
      topoOkFrom g (seen ++ [a]) rest

/-- `CalculationDependencyMapper.calculate_execution_order` (lines 259-287):
depth-first topological sort over the keys in insertion order; raises
`ValueError` (the `.error` channel) on a node found on the current recursion
path. -/
def calculate_execution_order (g : DepGraph) : Except Str (List Str) :=
  match visitL g (graphFuel g) (keysOf g) [] [] [] with
  | .ok (_, order) => .ok order
  | .error e => .error e

/-- The edge relation of the key-restricted dependency graph: `a` depends on
`b` and both are keys — exactly the edges the sort follows. -/
def DepEdge (g : DepGraph) (a b : Str) : Prop :=
  isKey g a = true ∧ isKey g b = true ∧ b ∈ lookupDeps g a

/-- A genuine dependency cycle among the keys. -/
def HasCycle (g : DepGraph) : Prop := ∃ n, Relation.TransGen (DepEdge g) n n

/-- Claim C2 as the spec words it, for refutation: the dependency set equals
the interiors of the bracketed substrings occurring in the *input* formula
(nonempty, free of `]`, and bracketed somewhere in the input). -/
def ClaimC2 : Prop :=
  ∀ f x, x ∈ depsOf f ↔ (x ≠ [] ∧ ']' ∉ x ∧ ('[' :: x ++ [']']) <:+: f)

/-- Claim C8 as the spec words it, for refutation: whenever a function name
with an absent Python mapping occurs in a formula, the Python expression of
the translation is left empty. -/
def ClaimC8 : Prop :=
  ∀ f e, e ∈ functionMap → e.py = none → infixOf e.name f = true →
    pyExprOf f = []

set_option maxRecDepth 100000
set_option maxHeartbeats 2000000

/-! ### Totality of the translator -/

theorem mkIfRepl_python_eq (c t e : Str) :
    mkIfRepl (S "python") c t e =
      some ((S "(") ++ t ++ (S " if ") ++ c ++ (S " else ") ++ e ++ (S ")")) := rfl

theorem mkIfRepl_pandas_eq (c t e : Str) :
    mkIfRepl (S "pandas") c t e =
      some ((S "np.where(") ++ c ++ (S ", ") ++ t ++ (S ", ") ++ e ++ (S ")")) := rfl

theorem mkIfRepl_sql_eq (c t e : Str) :
    mkIfRepl (S "sql") c t e =
      some ((S "CASE WHEN ") ++ c ++ (S " THEN ") ++ t ++ (S " ELSE ") ++ e ++ (S " END")) := rfl

theorem mkIfRepl_isSome_of_target (target : Str)
    (h : target = S "python" ∨ target = S "pandas" ∨ target = S "sql")
    (c t e : Str) : (mkIfRepl target c t e).isSome := by
  rcases h with h | h | h <;> subst h <;> rfl

theorem ifSubGo_isSome (target : Str)
    (h : target = S "python" ∨ target = S "pandas" ∨ target = S "sql") :
    ∀ fuel s, (ifSubGo target fuel s).isSome := by
  intro fuel
  induction fuel with
  | zero => intro s; rfl
  | succ n ih =>
      intro s
      cases s with
      | nil => rfl
      | cons c rest =>
          rw [ifSubGo]
          cases hp : parseIfAt (c :: rest) with
          | none => simpa using ih rest
          | some q =>
              obtain ⟨cond, thenv, elsev, after⟩ := q
              obtain ⟨rep, hmk⟩ := Option.isSome_iff_exists.mp
                (mkIfRepl_isSome_of_target target h cond thenv elsev)
              simp only [hmk, Option.isSome_map']
              exact ih after

theorem translateToPython_isSome (f : Str) : (translateToPython f).isSome := by
  unfold translateToPython
  rw [Option.isSome_map']
  exact ifSubGo_isSome (S "python") (Or.inl rfl) _ _

theorem translateToPandas_isSome (f : Str) : (translateToPandas f).isSome := by
  unfold translateToPandas
  rw [Option.isSome_map']
  exact ifSubGo_isSome (S "pandas") (Or.inr (Or.inl rfl)) _ _

theorem translateToSql_isSome (f : Str) : (translateToSql f).isSome := by
  unfold translateToSql
  rw [Option.isSome_map']
  exact ifSubGo_isSome (S "sql") (Or.inr (Or.inr rfl)) _ _

theorem translateToPython_some (f : Str) : ∃ t, translateToPython f = some t :=
  Option.isSome_iff_exists.mp (translateToPython_isSome f)

theorem translateToPandas_some (f : Str) : ∃ t, translateToPandas f = some t :=
  Option.isSome_iff_exists.mp (translateToPandas_isSome f)

theorem translateToSql_some (f : Str) : ∃ t, translateToSql f = some t :=
  Option.isSome_iff_exists.mp (translateToSql_isSome f)

/-- `translate` returns a record on every input: the one latent exception
(a `replace_if` result of `None`) is unreachable for the literal targets. -/
theorem translate_eq_of (f : Str) {py pdE sq : Str}
    (hpy : translateToPython (cleanFormula f) = some py)
    (hpd : translateToPandas (cleanFormula f) = some pdE)
    (hsq : translateToSql (cleanFormula f) = some sq) :
    translate f = some ⟨py, pdE, some sq, (extractBrackets (cleanFormula f)).dedup,
      requiresAggregation (cleanFormula f), isWindowFunction (cleanFormula f)⟩ := by
  unfold translate
  rw [hpy, Option.some_bind, hpd, Option.some_bind, hsq, Option.some_bind]

theorem translate_total (f : Str) : ∃ r, translate f = some r := by
  obtain ⟨py, hpy⟩ := translateToPython_some (cleanFormula f)
  obtain ⟨pdE, hpd⟩ := translateToPandas_some (cleanFormula f)
  obtain ⟨sq, hsq⟩ := translateToSql_some (cleanFormula f)
  exact ⟨_, translate_eq_of f hpy hpd hsq⟩

/-- Reading the fields off a successful translation. -/
theorem translate_some_fields (f : Str) (r : TranslatedFormula)
    (h : translate f = some r) :
    r.dependencies = (extractBrackets (cleanFormula f)).dedup ∧
    r.requires_aggregation = requiresAggregation (cleanFormula f) ∧
    r.is_window_function = isWindowFunction (cleanFormula f) ∧
    (∃ s, r.sql_expression = some s ∧ translateToSql (cleanFormula f) = some s) ∧
    translateToPython (cleanFormula f) = some r.python_expression ∧
    translateToPandas (cleanFormula f) = some r.pandas_expression := by
  obtain ⟨py, hpy⟩ := translateToPython_some (cleanFormula f)
  obtain ⟨pdE, hpd⟩ := translateToPandas_some (cleanFormula f)
  obtain ⟨sq, hsq⟩ := translateToSql_some (cleanFormula f)
  have he := translate_eq_of f hpy hpd hsq
  rw [h] at he
  injection he with he
  subst he
  exact ⟨by simp only [], by simp only [], by simp only [],
    ⟨sq, by simp only [], hsq⟩, by simpa only [] using hpy, by simpa only [] using hpd⟩

/-- C1.  For every input string `translate` returns a translation record and
never raises: the model's exception channel (`none`) is never taken, also for
malformed brackets, an IF without END, and an unclosed brace — on those the
record degrades to partially transformed text, as computed explicitly. -/
theorem c1_translate_never_raises :
    (∀ f, ∃ r, translate f = some r) ∧
    translate (S "[[A") = some ⟨S "[[A", S "[[A", some (S "[[A"), [], false, false⟩ ∧
    translate (S "IF [A] THEN 1") =
      some ⟨S "if data['A'] THEN 1", S "IF df['A'] THEN 1",
        some (S "CASE WHEN \"A\" THEN 1"), [S "A"], false, false⟩ ∧
    translate (S "\x7b FIXED [A] : SUM([B])") =
      some ⟨S "\x7b FIXED data['A'] : sum(data['B'])",
        S "\x7b FIXED df['A'] : df['df['B']'].sum()",
        some (S "\x7b FIXED \"A\" : SUM(\"B\")"), [S "A", S "B"], true, false⟩ :=
  ⟨translate_total, rfl, rfl, rfl⟩

/-- C10.  All three expression fields of every translation are present:
the Python and pandas fields are strings by construction, and the
`Optional[str]`-typed SQL field is never `None`, since `_translate_to_sql`
returns a string on every path. -/
theorem c10_sql_expression_never_none (f : Str) :
    ∃ r, translate f = some r ∧ ∃ s, r.sql_expression = some s := by
  obtain ⟨r, hr⟩ := translate_total f
  obtain ⟨-, -, -, ⟨s, hs, -⟩, -, -⟩ := translate_some_fields f r hr
  exact ⟨r, hr, s, hs⟩

/-! ### Classification (C3) -/

theorem infixOf_iff (pat s : Str) : infixOf pat s = true ↔ pat <:+: s := by
  induction s with
  | nil =>
      simp only [infixOf, List.isEmpty_iff, List.infix_nil]
  | cons c cs ih =>
      simp only [infixOf, Bool.or_eq_true, List.isPrefixOf_iff_prefix, ih,
        List.infix_cons_iff]

theorem requiresAggregation_iff (s : Str) :
    requiresAggregation s = true ↔
      ∃ n, n ∈ aggFunctions ∧ n <:+: s.map Char.toUpper := by
  unfold requiresAggregation
  simp only [List.any_eq_true, infixOf_iff]

/-- C3.  `requires_aggregation` is true exactly when one of the nine
aggregation names occurs (case-insensitively: after upper-casing) as a
substring of the normalized formula; in particular it is true for
`SUM([Sales])` and false for `[Sales]`. -/
theorem c3_requires_aggregation_iff :
    (∀ f, ∃ r, translate f = some r ∧
      (r.requires_aggregation = true ↔
        ∃ n, n ∈ aggFunctions ∧ n <:+: (cleanFormula f).map Char.toUpper)) ∧
    (∃ r, translate (S "SUM([Sales])") = some r ∧ r.requires_aggregation = true) ∧
    (∃ r, translate (S "[Sales]") = some r ∧ r.requires_aggregation = false) := by
  refine ⟨fun f => ?_,
    ⟨⟨S "sum(data['Sales'])", S "df['df['Sales']'].sum()", some (S "SUM(\"Sales\")"),
      [S "Sales"], true, false⟩, rfl, rfl⟩,
    ⟨⟨S "data['Sales']", S "df['Sales']", some (S "\"Sales\""),
      [S "Sales"], false, false⟩, rfl, rfl⟩⟩
  obtain ⟨r, hr⟩ := translate_total f
  refine ⟨r, hr, ?_⟩
  rw [(translate_some_fields f r hr).2.1]
  exact requiresAggregation_iff (cleanFormula f)

/-! ### The conditional scenario (C6) -/

/-- C6.  The SQL expression of the IF/THEN/ELSE scenario contains
`CASE WHEN`, `THEN`, `ELSE`, `END` in that order (the computed expression is
stated in full). -/
theorem c6_conditional_sql_case_when :
    translate (S "IF [Sales] > 1000 THEN 'High' ELSE 'Low' END") =
      some ⟨S "('High' if data['Sales'] > 1000 else 'Low')",
        S "np.where(df['Sales'] > 1000, 'High', 'Low')",
        some (S "CASE WHEN \"Sales\" > 1000 THEN 'High' ELSE 'Low' END"),
        [S "Sales"], false, false⟩ ∧
    containsInOrder [S "CASE WHEN", S "THEN", S "ELSE", S "END"]
      (S "CASE WHEN \"Sales\" > 1000 THEN 'High' ELSE 'Low' END") = true :=
  ⟨rfl, rfl⟩

/-! ### The scoped-aggregation scenario (C7) -/

/-- C7.  On the spec's spaced LOD input the dependency half of the claim
holds, but the pandas expression contains no grouping call at all: the LOD
pattern `\{(FIXED|INCLUDE|EXCLUDE)...` requires the keyword directly after
the brace, so the spaced form is left untransformed.  Without the space the
same formula does produce the `groupby(['Region'])`-parameterized transform,
which isolates the missing `\s*` as the slip. -/
theorem c7_lod_scenario_code_bug :
    S "Region" ∈ depsOf (S "\x7b FIXED [Region] : SUM([Sales]) \x7d") ∧
    S "Sales" ∈ depsOf (S "\x7b FIXED [Region] : SUM([Sales]) \x7d") ∧
    pdExprOf (S "\x7b FIXED [Region] : SUM([Sales]) \x7d") =
      S "\x7b FIXED df['Region'] : df['df['Sales']'].sum() \x7d" ∧
    infixOf (S "groupby") (pdExprOf (S "\x7b FIXED [Region] : SUM([Sales]) \x7d")) = false ∧
    pdExprOf (S "\x7bFIXED [Region] : SUM([Sales])\x7d") =
      S "df.groupby([\"df'Region'\"]).transform(lambda x: xdf['df['Sales']'].sum())" ∧
    infixOf (S "groupby") (pdExprOf (S "\x7bFIXED [Region] : SUM([Sales])\x7d")) = true ∧
    infixOf (S "Region") (pdExprOf (S "\x7bFIXED [Region] : SUM([Sales])\x7d")) = true := by
  refine ⟨?_, ?_, rfl, rfl, rfl, rfl, rfl⟩ <;> decide

/-! ### Dependencies (C2) -/

theorem infix_cons_self {l t : Str} {c : Char} (h : l <:+: t) : l <:+: c :: t := by
  obtain ⟨pre, suf, he⟩ := h
  exact ⟨c :: pre, suf, by rw [List.cons_append, List.cons_append, he]⟩

/-- Every interior the bracket scan returns is nonempty, free of `]`, and
occurs bracketed in the scanned string. -/
theorem extrBrk_sound : ∀ fuel s x, x ∈ extrBrk fuel s →
    x ≠ [] ∧ ']' ∉ x ∧ ('[' :: x ++ [']']) <:+: s := by
  intro fuel
  induction fuel with
  | zero => intro s x hx; simp [extrBrk] at hx
  | succ n ih =>
      intro s x hx
      cases s with
      | nil => simp [extrBrk] at hx
      | cons c rest =>
          rw [extrBrk] at hx
          split at hx
          · rename_i hc
            split at hx
            · rename_i after heq
              simp only [] at hx
              split at hx
              · obtain ⟨h1, h2, h3⟩ := ih rest x hx
                exact ⟨h1, h2, infix_cons_self h3⟩
              · rename_i hne
                rcases List.mem_cons.mp hx with hx | hx
                · subst hx
                  have hcc : c = '[' := by simpa using hc
                  have hrest :
                      rest = rest.takeWhile (fun d => d != ']') ++ (']' :: after) := by
                    rw [← heq, List.takeWhile_append_dropWhile]
                  refine ⟨by simpa using hne, ?_, ?_⟩
                  · intro hmem
                    have := List.mem_takeWhile_imp hmem
                    simp at this
                  · refine ⟨[], after, ?_⟩
                    simp only [hcc, List.nil_append, List.cons_append,
                      List.append_assoc, List.singleton_append]
                    rw [← hrest]
                · obtain ⟨h1, h2, h3⟩ := ih after x hx
                  refine ⟨h1, h2, infix_cons_self (h3.trans ?_)⟩
                  have hrest :
                      rest = rest.takeWhile (fun d => d != ']') ++ (']' :: after) := by
                    rw [← heq, List.takeWhile_append_dropWhile]
                  rw [hrest]
                  exact ((List.suffix_cons ']' after).trans
                    (List.suffix_append _ _)).isInfix
            · obtain ⟨h1, h2, h3⟩ := ih rest x hx
              exact ⟨h1, h2, infix_cons_self h3⟩
          · obtain ⟨h1, h2, h3⟩ := ih rest x hx
            exact ⟨h1, h2, infix_cons_self h3⟩

theorem extractBrackets_sound (s x : Str) (hx : x ∈ extractBrackets s) :
    x ≠ [] ∧ ']' ∉ x ∧ ('[' :: x ++ [']']) <:+: s :=
  extrBrk_sound (s.length + 1) s x hx

theorem depsOf_eq (f : Str) : depsOf f = (extractBrackets (cleanFormula f)).dedup := by
  obtain ⟨r, hr⟩ := translate_total f
  unfold depsOf
  rw [hr]
  exact (translate_some_fields f r hr).1

/-- C2, counterexample.  On the input `[sum[x]` the claim fails twice over:
`x` is bracketed in the input but is not among the dependencies (the scan is
non-overlapping), and the returned interior is `SUM[x` — normalization has
upper-cased the `sum` inside the bracket — which is not bracketed in the raw
input. -/
theorem c2_counterexample : ¬ ClaimC2 := by
  intro h
  have h2 := (h (S "[sum[x]") (S "x")).mpr
    ⟨by decide, by decide, ⟨S "[sum", [], by decide⟩⟩
  exact absurd h2 (by decide)

/-- C2, amended.  The dependency list of `translate`, viewed as a set, equals
the set of interiors that the non-overlapping left-to-right bracket scan
extracts from the *normalized* formula; it is duplicate-free, and every
member is a nonempty `]`-free string that occurs bracketed in the normalized
formula.  The scenario `[A]+[A]+[B]` yields exactly the set `{A, B}`. -/
theorem c2_dependencies_amended :
    (∀ f, ∃ r, translate f = some r ∧
      r.dependencies = (extractBrackets (cleanFormula f)).dedup ∧
      r.dependencies.Nodup ∧
      (∀ x, x ∈ r.dependencies ↔ x ∈ extractBrackets (cleanFormula f)) ∧
      (∀ x, x ∈ r.dependencies →
        x ≠ [] ∧ ']' ∉ x ∧ ('[' :: x ++ [']']) <:+: cleanFormula f)) ∧
    depsOf (S "[A]+[A]+[B]") = [S "A", S "B"] := by
  constructor
  · intro f
    obtain ⟨r, hr⟩ := translate_total f
    have hd := (translate_some_fields f r hr).1
    refine ⟨r, hr, hd, ?_, ?_, ?_⟩
    · rw [hd]; exact List.nodup_dedup _
    · intro x; rw [hd]; exact List.mem_dedup
    · intro x hx
      rw [hd] at hx
      exact extractBrackets_sound (cleanFormula f) x (List.mem_dedup.mp hx)
  · rfl

/-! ### Unmapped constructs (C8): the expression fields are never emptied -/

theorem mkIfRepl_some_ne_nil {target c t e rep : Str}
    (h : mkIfRepl target c t e = some rep) : rep ≠ [] := by
  unfold mkIfRepl at h
  split at h
  · injection h with h; subst h; intro hc; exact List.cons_ne_nil '(' _ hc
  · split at h
    · injection h with h; subst h; intro hc; exact List.cons_ne_nil 'n' _ hc
    · split at h
      · injection h with h; subst h; intro hc; exact List.cons_ne_nil 'C' _ hc
      · exact absurd h (by simp)

theorem subBrk_ne_nil (pre post : Str) (fuel : Nat) (s : Str) (hs : s ≠ []) :
    subBrk pre post fuel s ≠ [] := by
  cases fuel with
  | zero => exact hs
  | succ n =>
      cases s with
      | nil => exact absurd rfl hs
      | cons c rest =>
          rw [subBrk]
          split
          · split
            · simp only []
              split
              · exact List.cons_ne_nil _ _
              · rename_i hne
                intro hc
                simp only [List.append_eq_nil] at hc
                exact absurd hc.1.1.2 (by simpa using hne)
            · exact List.cons_ne_nil _ _
          · exact List.cons_ne_nil _ _

theorem strRepl_ne_nil (pat rep : Str) (fuel : Nat) (s : Str)
    (hrep : rep ≠ []) (hs : s ≠ []) : strRepl pat rep fuel s ≠ [] := by
  cases fuel with
  | zero => exact hs
  | succ n =>
      cases s with
      | nil => exact absurd rfl hs
      | cons c rest =>
          rw [strRepl]
          split
          · intro hc
            simp only [List.append_eq_nil] at hc
            exact absurd hc.1 hrep
          · exact List.cons_ne_nil _ _

theorem subCallGo_ne_nil (fname pfunc : Str) (fuel : Nat) (s : Str) (hs : s ≠ []) :
    subCallGo fname pfunc fuel s ≠ [] := by
  cases fuel with
  | zero => exact hs
  | succ n =>
      cases s with
      | nil => exact absurd rfl hs
      | cons c rest =>
          rw [subCallGo]
          split
          · intro hc
            simp only [List.append_eq_nil] at hc
            exact List.cons_ne_nil 'd' _ hc.1.1.1.1
          · exact List.cons_ne_nil _ _

theorem pyFuncStep_ne_nil (r : Str) (e : FuncEntry) (hr : r ≠ [])
    (hpy : e.py ≠ some []) : pyFuncStep r e ≠ [] := by
  unfold pyFuncStep
  split
  · rename_i p hp
    split
    · refine strRepl_ne_nil _ _ _ _ (fun hpn => ?_) hr
      exact hpy (by rw [hp, hpn])
    · exact hr
  · exact hr

theorem pdFuncStep_ne_nil (r : Str) (e : FuncEntry) (hr : r ≠ [])
    (hpd : e.pd ≠ some []) : pdFuncStep r e ≠ [] := by
  unfold pdFuncStep
  split
  · rename_i p hp
    split
    · split
      · exact subCallGo_ne_nil _ _ _ _ hr
      · refine strRepl_ne_nil _ _ _ _ (fun hpn => ?_) hr
        exact hpd (by rw [hp, hpn])
    · exact hr
  · exact hr

theorem sqlFuncStep_ne_nil (r : Str) (e : FuncEntry) (hr : r ≠ [])
    (hsql : e.sql ≠ some []) : sqlFuncStep r e ≠ [] := by
  unfold sqlFuncStep
  split
  · rename_i q hq
    split
    · refine strRepl_ne_nil _ _ _ _ (fun hqn => ?_) hr
      exact hsql (by rw [hq, hqn])
    · exact hr
  · exact hr

theorem functionMap_py_ne : ∀ e ∈ functionMap, e.py ≠ some [] := by decide

theorem functionMap_pd_ne : ∀ e ∈ functionMap, e.pd ≠ some [] := by decide

theorem functionMap_sql_ne : ∀ e ∈ functionMap, e.sql ≠ some [] := by decide

theorem foldl_ne_nil (step : Str → FuncEntry → Str) (l : List FuncEntry)
    (hstep : ∀ r e, e ∈ l → r ≠ [] → step r e ≠ []) :
    ∀ r : Str, r ≠ [] → l.foldl step r ≠ [] := by
  induction l with
  | nil => intro r hr; exact hr
  | cons e es ih =>
      intro r hr
      exact ih (fun r' e' he' => hstep r' e' (List.mem_cons_of_mem _ he')) _
        (hstep r e (List.mem_cons_self _ _) hr)

theorem ifSubGo_some_ne_nil (target : Str) (fuel : Nat) (s t : Str)
    (hs : s ≠ []) (h : ifSubGo target fuel s = some t) : t ≠ [] := by
  cases fuel with
  | zero => rw [ifSubGo] at h; injection h with h; subst h; exact hs
  | succ n =>
      cases s with
      | nil => exact absurd rfl hs
      | cons c rest =>
          rw [ifSubGo] at h
          split at h
          · split at h
            · rename_i rep hmk
              obtain ⟨t', -, rfl⟩ := Option.map_eq_some'.mp h
              intro hc
              simp only [List.append_eq_nil] at hc
              exact absurd hc.1 (mkIfRepl_some_ne_nil hmk)
            · exact absurd h (by simp)
          · obtain ⟨t', -, rfl⟩ := Option.map_eq_some'.mp h
            exact List.cons_ne_nil _ _

theorem lodExprScan_fst_ne_nil {r2 ex rest : Str}
    (h : lodExprScan r2 = some (ex, rest)) : ex ≠ [] := by
  unfold lodExprScan at h
  split at h
  · exact absurd h (by simp)
  · split at h
    · simp only [] at h
      split at h
      · split at h
        · split at h
          · split at h
            · injection h with h
              injection h with h1 h2
              subst h1
              exact List.cons_ne_nil _ _
            · exact absurd h (by simp)
          · exact absurd h (by simp)
        · injection h with h
          injection h with h1 h2
          subst h1
          rename_i hne
          simpa using hne
      · exact absurd h (by simp)
    · exact absurd h (by simp)

theorem parseLodBody_expr_ne_nil {kw r0 k d ex rest : Str}
    (h : parseLodBody kw r0 = some (k, d, ex, rest)) : ex ≠ [] := by
  unfold parseLodBody at h
  split at h
  · exact absurd h (by simp)
  · split at h
    · exact absurd h (by simp)
    · split at h
      · exact absurd h (by simp)
      · rename_i heq
        injection h with h
        injection h with h1 h
        injection h with h2 h
        injection h with h3 h4
        subst h3
        exact lodExprScan_fst_ne_nil heq

theorem parseLodAt_expr_ne_nil {s k d ex rest : Str}
    (h : parseLodAt s = some (k, d, ex, rest)) : ex ≠ [] := by
  unfold parseLodAt at h
  split at h
  · split at h
    · exact parseLodBody_expr_ne_nil h
    · split at h
      · exact parseLodBody_expr_ne_nil h
      · split at h
        · exact parseLodBody_expr_ne_nil h
        · exact absurd h (by simp)
  · exact absurd h (by simp)

theorem replaceLod_ne_nil (target kw dims ex : Str)
    (htarget : (target == S "sql") = false) :
    replaceLod target kw dims ex ≠ [] := by
  unfold replaceLod
  split
  · split
    · intro hc; exact List.cons_ne_nil 'd' _ hc
    · split
      · intro hc; exact List.cons_ne_nil 'd' _ hc
      · intro hc; exact List.cons_ne_nil 'd' _ hc
  · rw [htarget]
    simp only [Bool.false_eq_true, if_false]
    intro hc; exact List.cons_ne_nil 'c' _ hc

theorem lodGo_ne_nil (target : Str) (htarget : (target == S "sql") = false) :
    ∀ (fuel : Nat) (s : Str), s ≠ [] → lodGo target fuel s ≠ [] := by
  intro fuel
  cases fuel with
  | zero => exact fun s hs => hs
  | succ n =>
      intro s hs
      cases s with
      | nil => exact absurd rfl hs
      | cons c rest =>
          rw [lodGo]
          split
          · rename_i kw dims ex after hp
            intro hc
            simp only [List.append_eq_nil] at hc
            exact absurd hc.1 (replaceLod_ne_nil target kw dims ex htarget)
          · exact List.cons_ne_nil _ _

theorem translateToPython_ne_nil (g t : Str) (hg : g ≠ [])
    (h : translateToPython g = some t) : t ≠ [] := by
  unfold translateToPython at h
  obtain ⟨r3, h3, rfl⟩ := Option.map_eq_some'.mp h
  refine lodGo_ne_nil (S "python") (by decide) _ _ ?_
  refine ifSubGo_some_ne_nil (S "python") _ _ _ ?_ h3
  exact foldl_ne_nil pyFuncStep functionMap
    (fun r e he hr => pyFuncStep_ne_nil r e hr (functionMap_py_ne e he)) _
    (subBrk_ne_nil _ _ _ _ hg)

theorem translateToPandas_ne_nil (g t : Str) (hg : g ≠ [])
    (h : translateToPandas g = some t) : t ≠ [] := by
  unfold translateToPandas at h
  obtain ⟨r3, h3, rfl⟩ := Option.map_eq_some'.mp h
  refine lodGo_ne_nil (S "pandas") (by decide) _ _ ?_
  refine ifSubGo_some_ne_nil (S "pandas") _ _ _ ?_ h3
  exact foldl_ne_nil pdFuncStep functionMap
    (fun r e he hr => pdFuncStep_ne_nil r e hr (functionMap_pd_ne e he)) _
    (subBrk_ne_nil _ _ _ _ hg)

/-- C8, counterexample.  `LEFT` has no Python mapping and occurs in
`LEFT([Name], 3)`, yet the Python expression of the translation is not
empty — it is `LEFT(data['Name'], 3)`, the construct left in place. -/
theorem c8_counterexample : ¬ ClaimC8 := by
  intro h
  have h2 := h (S "LEFT([Name], 3)")
    ⟨S "LEFT", none, some (S "str[:n]"), some (S "LEFT")⟩ (by decide) rfl (by decide)
  exact absurd h2 (by decide)

/-- C8, amended.  A construct without a mapping for a target is left in the
output text untransformed rather than blanking the expression field: the
Python and pandas expressions are never emptied (whenever the normalized
formula is nonempty), and for the `LEFT` scenario the Python expression
keeps `LEFT` verbatim.  (The SQL expression is excluded: a degenerate LOD
such as an INCLUDE whose stripped expression group is empty yields an empty
SQL replacement — `replace_lod` returns the bare stripped expression there —
which is unrelated to unmapped function names.) -/
theorem c8_unmapped_function_amended :
    (∀ f, ∃ r, translate f = some r ∧
      (cleanFormula f ≠ [] →
        r.python_expression ≠ [] ∧ r.pandas_expression ≠ [])) ∧
    pyExprOf (S "LEFT([Name], 3)") = S "LEFT(data['Name'], 3)" ∧
    infixOf (S "LEFT") (pyExprOf (S "LEFT([Name], 3)")) = true := by
  refine ⟨fun f => ?_, by decide, by decide⟩
  obtain ⟨r, hr⟩ := translate_total f
  obtain ⟨-, -, -, -, hpy, hpd⟩ := translate_some_fields f r hr
  refine ⟨r, hr, fun hclean => ?_⟩
  exact ⟨translateToPython_ne_nil (cleanFormula f) r.python_expression hclean hpy,
    translateToPandas_ne_nil (cleanFormula f) r.pandas_expression hclean hpd⟩

/-! ### Idempotence of the normalization step -/

theorem ws_not_wordChar : ∀ c : Char, c.isWhitespace = true → isWordChar c = false := by
  intro c h
  simp only [Char.isWhitespace, Bool.or_eq_true, decide_eq_true_eq] at h
  rcases h with ((h | h) | h) | h <;> subst h <;> decide

theorem wordChar_not_ws : ∀ c : Char, isWordChar c = true → c.isWhitespace = false := by
  intro c h
  cases hws : c.isWhitespace with
  | false => rfl
  | true => rw [ws_not_wordChar c hws] at h; exact absurd h (by simp)

theorem renderW_append (g : Str → Str) : ∀ L₁ L₂ : List (Str ⊕ Char),
    renderW g (L₁ ++ L₂) = renderW g L₁ ++ renderW g L₂ := by
  intro L₁ L₂
  induction L₁ with
  | nil => rfl
  | cons ch L ih =>
      cases ch with
      | inl w =>
          simp only [List.cons_append, renderW, List.append_eq, ih, List.append_assoc]
      | inr c =>
          simp only [List.cons_append, renderW, List.append_eq, ih]

theorem rwGo_eq_render (g : Str → Str) : ∀ (s cur : Str),
    rwGo g cur s = renderW g (chunksGo cur s) := by
  intro s
  induction s with
  | nil =>
      intro cur
      by_cases hc : cur.isEmpty
      · simp [rwGo, chunksGo, hc, renderW]
      · simp [rwGo, chunksGo, hc, renderW]
  | cons c cs ih =>
      intro cur
      by_cases hw : isWordChar c
      · simp only [rwGo, chunksGo, hw, if_true]
        exact ih (cur ++ [c])
      · by_cases hc : cur.isEmpty
        · simp [rwGo, chunksGo, hw, hc, renderW_append, ih [], renderW]
        · simp [rwGo, chunksGo, hw, hc, renderW_append, ih [], renderW]

theorem replaceWords_eq (g : Str → Str) (s : Str) :
    replaceWords g s = renderW g (chunks s) := rwGo_eq_render g s []

theorem chunksGo_allword_append : ∀ (w cur s : Str),
    (∀ c ∈ w, isWordChar c = true) → chunksGo cur (w ++ s) = chunksGo (cur ++ w) s := by
  intro w
  induction w with
  | nil => intro cur s _; simp only [List.nil_append, List.append_nil]
  | cons c w' ih =>
      intro cur s hall
      have hc : isWordChar c = true := hall c (List.mem_cons_self _ _)
      simp only [List.cons_append, chunksGo, hc, if_true, List.append_eq]
      rw [ih (cur ++ [c]) s (fun d hd => hall d (List.mem_cons_of_mem _ hd))]
      simp only [List.append_assoc, List.singleton_append]

theorem chunksGo_wf : ∀ (s cur : Str),
    (∀ c ∈ cur, isWordChar c = true) → WFc true (chunksGo cur s) := by
  intro s
  induction s with
  | nil =>
      intro cur hcur
      by_cases hc : cur.isEmpty
      · simp [chunksGo, hc, WFc]
      · simp only [chunksGo, hc, if_false]
        refine ⟨by trivial, fun h => by simp [h] at hc, hcur, by trivial⟩
  | cons c cs ih =>
      intro cur hcur
      by_cases hw : isWordChar c
      · simp only [chunksGo, hw, if_true]
        exact ih (cur ++ [c]) (by
          intro d hd
          rcases List.mem_append.mp hd with h | h
          · exact hcur d h
          · simp only [List.mem_singleton] at h; subst h; exact hw)
      · have hwf : isWordChar c = false := by
          cases h2 : isWordChar c
          · rfl
          · exact absurd h2 hw
        simp only [chunksGo, hw, if_false]
        by_cases hc : cur.isEmpty
        · simp only [hc, if_true, List.nil_append, WFc]
          exact ⟨hwf, ih [] (by intro d hd; simp at hd)⟩
        · simp only [hc, if_false, List.singleton_append, WFc]
          exact ⟨by trivial, fun h => by simp [h] at hc, hcur,
            hwf, ih [] (by intro d hd; simp at hd)⟩

theorem chunksGo_render (h : Str → Str) (hp : WordPres h) :
    ∀ (L : List (Str ⊕ Char)) (cur : Str),
      (∀ c ∈ cur, isWordChar c = true) → WFc cur.isEmpty L →
      chunksGo cur (renderW h L) =
        (if cur.isEmpty then [] else [Sum.inl cur]) ++ mapW h L := by
  intro L
  induction L with
  | nil =>
      intro cur hcur _
      simp only [renderW, chunksGo, mapW, List.map_nil, List.append_nil]
  | cons ch L' ih =>
      intro cur hcur hwf
      cases ch with
      | inr c =>
          obtain ⟨hcf, hwf'⟩ := hwf
          have hrec := ih [] (by intro d hd; simp at hd) hwf'
          simp only [List.isEmpty_nil, if_true, List.nil_append] at hrec
          simp only [renderW, chunksGo, hcf, Bool.false_eq_true, if_false, hrec,
            mapW, List.map_cons]
      | inl w =>
          obtain ⟨hflag, hwne, hwall, hwf'⟩ := hwf
          have hcur0 : cur = [] := List.isEmpty_iff.mp hflag
          subst hcur0
          simp only [renderW, List.isEmpty_nil, if_true, List.nil_append]
          obtain ⟨hhne, hhall⟩ := hp w hwne hwall
          rw [chunksGo_allword_append (h w) [] (renderW h L') hhall]
          simp only [List.nil_append]
          have hhe : (h w).isEmpty = false := by
            cases he : (h w).isEmpty
            · rfl
            · exact absurd (List.isEmpty_iff.mp he) hhne
          have hrec := ih (h w) hhall (by rw [hhe]; exact hwf')
          rw [hrec, hhe]
          simp only [Bool.false_eq_true, if_false, mapW, List.map_cons,
            List.singleton_append]

theorem renderW_mapW (g h : Str → Str) : ∀ L : List (Str ⊕ Char),
    renderW g (mapW h L) = renderW (fun w => g (h w)) L := by
  intro L
  induction L with
  | nil => rfl
  | cons ch L' ih =>
      cases ch with
      | inl w => simp only [mapW, List.map_cons, renderW] at ih ⊢; rw [ih]
      | inr c => simp only [mapW, List.map_cons, renderW] at ih ⊢; rw [ih]

theorem rw_comp (g h : Str → Str) (hp : WordPres h) (s : Str) :
    replaceWords g (replaceWords h s) = replaceWords (fun w => g (h w)) s := by
  rw [replaceWords_eq h s, replaceWords_eq g, replaceWords_eq (fun w => g (h w)) s]
  have hwf : WFc true (chunks s) := chunksGo_wf s [] (by intro d hd; simp at hd)
  have hrc := chunksGo_render h hp (chunks s) [] (by intro d hd; simp at hd)
    (by simpa using hwf)
  simp only [List.isEmpty_nil, if_true, List.nil_append] at hrc
  rw [show chunks (renderW h (chunks s)) = chunksGo [] (renderW h (chunks s)) from rfl,
    hrc, renderW_mapW]

theorem rwGo_id : ∀ (s cur : Str), rwGo (fun w => w) cur s = cur ++ s := by
  intro s
  induction s with
  | nil =>
      intro cur
      by_cases hc : cur.isEmpty
      · simp [rwGo, List.isEmpty_iff.mp hc]
      · simp [rwGo, hc]
  | cons c cs ih =>
      intro cur
      by_cases hw : isWordChar c
      · simp only [rwGo, hw, if_true]
        rw [ih (cur ++ [c])]
        simp
      · by_cases hc : cur.isEmpty
        · simp [rwGo, hw, hc, ih [], List.isEmpty_iff.mp hc]
        · simp [rwGo, hw, hc, ih []]

theorem sub1_pres (n : Str) (hn : n ≠ [] ∧ ∀ c ∈ n, isWordChar c = true) :
    WordPres (sub1 n) := by
  intro w hw1 hw2
  unfold sub1
  split
  · exact hn
  · exact ⟨hw1, hw2⟩

theorem fold_rw : ∀ (l : List Str),
    (∀ n ∈ l, n ≠ [] ∧ ∀ c ∈ n, isWordChar c = true) → ∀ x : Str,
    l.foldl (fun r n => replaceWords (sub1 n) r) x
      = replaceWords (fun w => l.foldl (fun r n => sub1 n r) w) x := by
  intro l
  induction l with
  | nil =>
      intro _ x
      show x = replaceWords (fun w => w) x
      unfold replaceWords
      rw [rwGo_id x []]
      rfl
  | cons n l ih =>
      intro hl x
      have hn := hl n (List.mem_cons_self _ _)
      simp only [List.foldl_cons]
      rw [ih (fun m hm => hl m (List.mem_cons_of_mem _ hm)) (replaceWords (sub1 n) x)]
      rw [rw_comp _ (sub1 n) (sub1_pres n hn) x]

theorem rwGo_split (h : Str → Str) (c : Char) (hc : isWordChar c = false) :
    ∀ (a cur b : Str), rwGo h cur (a ++ c :: b) = rwGo h cur a ++ c :: rwGo h [] b := by
  intro a
  induction a with
  | nil =>
      intro cur b
      simp only [List.nil_append, rwGo, hc, Bool.false_eq_true, if_false]
  | cons d a' ih =>
      intro cur b
      by_cases hd : isWordChar d
      · simp only [List.cons_append, rwGo, hd, if_true, List.append_eq, ih]
      · simp only [List.cons_append, rwGo, hd, Bool.false_eq_true, if_false,
          List.append_eq, ih, List.append_assoc, List.cons_append]

theorem rw_joinSp (h : Str → Str) : ∀ ws : List Str,
    replaceWords h (joinSp ws) = joinSp (ws.map (replaceWords h)) := by
  intro ws
  induction ws with
  | nil => rfl
  | cons w ws' ih =>
      cases ws' with
      | nil => rfl
      | cons x xs =>
          show rwGo h [] (w ++ ' ' :: joinSp (x :: xs)) = _
          rw [rwGo_split h ' ' (by decide) w [] (joinSp (x :: xs))]
          rw [show (rwGo h [] (joinSp (x :: xs)) : Str)
            = replaceWords h (joinSp (x :: xs)) from rfl, ih]
          rfl

theorem splitGo_pieces : ∀ (s cur : Str),
    (∀ c ∈ cur, c.isWhitespace = false) →
    ∀ w ∈ splitGo cur s, w ≠ [] ∧ ∀ c ∈ w, c.isWhitespace = false := by
  intro s
  induction s with
  | nil =>
      intro cur hcur w hw
      by_cases hc : cur.isEmpty
      · simp [splitGo, hc] at hw
      · simp only [splitGo, hc, Bool.false_eq_true, if_false, List.mem_singleton] at hw
        subst hw
        exact ⟨fun h => by simp [h] at hc, hcur⟩
  | cons c cs ih =>
      intro cur hcur w hw
      by_cases hws : c.isWhitespace
      · simp only [splitGo, hws, if_true] at hw
        by_cases hc : cur.isEmpty
        · rw [if_pos hc] at hw
          exact ih [] (by intro d hd; simp at hd) w hw
        · rw [if_neg hc] at hw
          rcases List.mem_cons.mp hw with h | h
          · subst h
            exact ⟨fun h => by simp [h] at hc, hcur⟩
          · exact ih [] (by intro d hd; simp at hd) w h
      · simp only [splitGo, hws, Bool.false_eq_true, if_false] at hw
        refine ih (cur ++ [c]) ?_ w hw
        intro d hd
        rcases List.mem_append.mp hd with h | h
        · exact hcur d h
        · simp only [List.mem_singleton] at h
          subst h
          cases h2 : d.isWhitespace
          · rfl
          · exact absurd h2 hws

theorem splitGo_append_noWs : ∀ (w cur s : Str),
    (∀ c ∈ w, c.isWhitespace = false) → splitGo cur (w ++ s) = splitGo (cur ++ w) s := by
  intro w
  induction w with
  | nil => intro cur s _; simp only [List.nil_append, List.append_nil]
  | cons c w' ih =>
      intro cur s hall
      have hc : c.isWhitespace = false := hall c (List.mem_cons_self _ _)
      simp only [List.cons_append, splitGo, hc, Bool.false_eq_true, if_false,
        List.append_eq]
      rw [ih (cur ++ [c]) s (fun d hd => hall d (List.mem_cons_of_mem _ hd))]
      simp only [List.append_assoc, List.singleton_append]

theorem pySplit_joinSp : ∀ ws : List Str,
    (∀ w ∈ ws, w ≠ [] ∧ ∀ c ∈ w, c.isWhitespace = false) →
    pySplit (joinSp ws) = ws := by
  intro ws
  induction ws with
  | nil => intro _; rfl
  | cons w ws' ih =>
      intro hws
      obtain ⟨hwne, hwnws⟩ := hws w (List.mem_cons_self _ _)
      have hwe : w.isEmpty = false := by
        cases he : w.isEmpty
        · rfl
        · exact absurd (List.isEmpty_iff.mp he) hwne
      cases ws' with
      | nil =>
          show splitGo [] (joinSp [w]) = [w]
          have : joinSp [w] = w ++ [] := by simp [joinSp]
          rw [this, splitGo_append_noWs w [] [] hwnws]
          simp [splitGo, hwe]
      | cons x xs =>
          show splitGo [] (w ++ ' ' :: joinSp (x :: xs)) = w :: x :: xs
          rw [splitGo_append_noWs w [] (' ' :: joinSp (x :: xs)) hwnws]
          simp only [List.nil_append, splitGo,
            show (' ' : Char).isWhitespace = true from rfl, if_true, hwe,
            Bool.false_eq_true, if_false]
          rw [show (splitGo [] (joinSp (x :: xs)) : List Str)
            = pySplit (joinSp (x :: xs)) from rfl]
          rw [ih (fun m hm => hws m (List.mem_cons_of_mem _ hm))]

theorem rwGo_piece (h : Str → Str) (hp : WordPres h) : ∀ (s cur : Str),
    (∀ c ∈ s, c.isWhitespace = false) → (∀ c ∈ cur, isWordChar c = true) →
    (∀ c ∈ rwGo h cur s, c.isWhitespace = false) ∧
      ((cur ≠ [] ∨ s ≠ []) → rwGo h cur s ≠ []) := by
  intro s
  induction s with
  | nil =>
      intro cur hs hcur
      by_cases hc : cur.isEmpty
      · have : cur = [] := List.isEmpty_iff.mp hc
        subst this
        constructor
        · intro c hcm; simp [rwGo] at hcm
        · intro hor
          rcases hor with h1 | h1
          · exact absurd rfl h1
          · exact absurd rfl h1
      · have hcne : cur ≠ [] := fun h => by simp [h] at hc
        obtain ⟨hne, hall⟩ := hp cur hcne hcur
        constructor
        · intro c hcm
          simp only [rwGo, hc, if_false] at hcm
          exact wordChar_not_ws c (hall c hcm)
        · intro _
          simp only [rwGo, hc, if_false]
          exact hne
  | cons c cs ih =>
      intro cur hs hcur
      have hcn : c.isWhitespace = false := hs c (List.mem_cons_self _ _)
      have hs' : ∀ d ∈ cs, d.isWhitespace = false :=
        fun d hd => hs d (List.mem_cons_of_mem _ hd)
      by_cases hw : isWordChar c
      · have hcur' : ∀ d ∈ cur ++ [c], isWordChar d = true := by
          intro d hd
          rcases List.mem_append.mp hd with h1 | h1
          · exact hcur d h1
          · simp only [List.mem_singleton] at h1; subst h1; exact hw
        have := ih (cur ++ [c]) hs' hcur'
        constructor
        · intro d hd
          simp only [rwGo, hw, if_true] at hd
          exact this.1 d hd
        · intro _
          simp only [rwGo, hw, if_true]
          exact this.2 (Or.inl (by simp))
      · have := ih [] hs' (by intro d hd; simp at hd)
        constructor
        · intro d hd
          simp only [rwGo, hw, Bool.false_eq_true, if_false] at hd
          rcases List.mem_append.mp hd with h1 | h1
          · by_cases hc2 : cur.isEmpty
            · rw [if_pos hc2] at h1; simp at h1
            · rw [if_neg hc2] at h1
              have hcne : cur ≠ [] := fun h => by simp [h] at hc2
              obtain ⟨-, hall⟩ := hp cur hcne hcur
              exact wordChar_not_ws d (hall d h1)
          · rcases List.mem_cons.mp h1 with h2 | h2
            · subst h2; exact hcn
            · exact this.1 d h2
        · intro _
          simp only [rwGo, hw, Bool.false_eq_true, if_false]
          intro hcontra
          rcases List.append_eq_nil.mp hcontra with ⟨-, h2⟩
          exact List.cons_ne_nil _ _ h2

theorem collapseWs_rw (h : Str → Str) (hp : WordPres h) (f : Str) :
    collapseWs (replaceWords h (collapseWs f)) = replaceWords h (collapseWs f) := by
  have hp0 : ∀ w ∈ pySplit f, w ≠ [] ∧ ∀ c ∈ w, c.isWhitespace = false :=
    splitGo_pieces f [] (by intro d hd; simp at hd)
  have hpcs : ∀ w' ∈ (pySplit f).map (replaceWords h),
      w' ≠ [] ∧ ∀ c ∈ w', c.isWhitespace = false := by
    intro w' hw'
    obtain ⟨w, hw, rfl⟩ := List.mem_map.mp hw'
    obtain ⟨hne, hnws⟩ := hp0 w hw
    have := rwGo_piece h hp w [] hnws (by intro d hd; simp at hd)
    exact ⟨this.2 (Or.inr hne), this.1⟩
  have h1 : replaceWords h (collapseWs f) = joinSp ((pySplit f).map (replaceWords h)) := by
    show replaceWords h (joinSp (pySplit f)) = _
    exact rw_joinSp h (pySplit f)
  rw [h1]
  show joinSp (pySplit (joinSp ((pySplit f).map (replaceWords h)))) = _
  rw [pySplit_joinSp ((pySplit f).map (replaceWords h)) hpcs]

theorem foldlSub1_cases : ∀ (l : List Str) (w : Str),
    l.foldl (fun r n => sub1 n r) w = w ∨ l.foldl (fun r n => sub1 n r) w ∈ l := by
  intro l
  induction l with
  | nil => intro w; exact Or.inl rfl
  | cons n l ih =>
      intro w
      simp only [List.foldl_cons]
      have hs : sub1 n w = w ∨ sub1 n w = n := by
        unfold sub1; split
        · exact Or.inr rfl
        · exact Or.inl rfl
      rcases hs with h | h
      · rw [h]
        rcases ih w with h2 | h2
        · exact Or.inl h2
        · exact Or.inr (List.mem_cons_of_mem _ h2)
      · rw [h]
        rcases ih n with h2 | h2
        · exact Or.inr (by rw [h2]; exact List.mem_cons_self _ _)
        · exact Or.inr (List.mem_cons_of_mem _ h2)

theorem funcNames_props : ∀ n ∈ funcNames, n ≠ [] ∧ ∀ c ∈ n, isWordChar c = true := by
  decide

theorem canonKeys : ∀ n ∈ funcNames, canonWord n = n := by decide

theorem canonWord_pres : WordPres canonWord := by
  intro w hne hword
  rcases foldlSub1_cases funcNames w with h | h
  · unfold canonWord
    rw [h]
    exact ⟨hne, hword⟩
  · exact funcNames_props _ h

theorem canonWord_idem : ∀ w, canonWord (canonWord w) = canonWord w := by
  intro w
  rcases foldlSub1_cases funcNames w with h | h
  · show canonWord (canonWord w) = canonWord w
    unfold canonWord
    rw [show List.foldl (fun r n => sub1 n r) w funcNames = w from h]
    exact h
  · exact canonKeys _ h

/-- C9.  `_clean_formula` is idempotent: the whitespace collapse and the
per-key case-folding `re.sub` passes leave an already-cleaned formula
unchanged, so `normalize(normalize(f)) = normalize(f)` for every input. -/
theorem c9_normalization_idempotent (f : Str) :
    cleanFormula (cleanFormula f) = cleanFormula f := by
  unfold cleanFormula
  rw [fold_rw funcNames funcNames_props]
  rw [fold_rw funcNames funcNames_props]
  rw [show (fun w => funcNames.foldl (fun r n => sub1 n r) w) = canonWord from rfl]
  rw [collapseWs_rw canonWord canonWord_pres f]
  rw [rw_comp canonWord canonWord canonWord_pres (collapseWs f)]
  rw [show (fun w => canonWord (canonWord w)) = canonWord from funext canonWord_idem]

/-! ### Correctness of the execution-order computation -/

theorem mem_split_first {a : Str} : ∀ {l : List Str}, a ∈ l →
    ∃ l1 l2, l = l1 ++ a :: l2 ∧ a ∉ l1 := by
  intro l
  induction l with
  | nil => intro h; simp at h
  | cons x l' ih =>
      intro h
      by_cases hx : a = x
      · subst hx
        exact ⟨[], l', rfl, by simp⟩
      · rcases List.mem_cons.mp h with h1 | h1
        · exact absurd h1 hx
        · obtain ⟨l1, l2, heq, hnm⟩ := ih h1
          exact ⟨x :: l1, l2, by rw [heq, List.cons_append],
            by simp [hnm, fun h2 => hx h2]⟩

theorem rank_before : ∀ (l1 : List Str) (l2 : List Str) (a b : Str),
    (l1 ++ a :: l2).Nodup → b ∈ l1 →
    rankIn (l1 ++ a :: l2) b < rankIn (l1 ++ a :: l2) a := by
  intro l1
  induction l1 with
  | nil => intro l2 a b _ hb; simp at hb
  | cons x l1' ih =>
      intro l2 a b hnd hb
      have hax : ¬ (x == a) = true := by
        intro h
        have : x = a := by simpa using h
        subst this
        have : x ∉ l1' ++ x :: l2 := (List.nodup_cons.mp hnd).1
        simp at this
      rcases List.mem_cons.mp hb with h1 | h1
      · subst h1
        simp only [List.cons_append, rankIn, List.append_eq, beq_self_eq_true, if_true]
        rw [if_neg hax]
        exact Nat.succ_pos _
      · have hbx : ¬ (x == b) = true := by
          intro h
          have : x = b := by simpa using h
          subst this
          have : x ∉ l1' ++ a :: l2 := (List.nodup_cons.mp hnd).1
          exact this (List.mem_append.mpr (Or.inl h1))
        simp only [List.cons_append, rankIn, List.append_eq]
        rw [if_neg hax, if_neg hbx]
        exact Nat.succ_lt_succ (ih l2 a b (List.nodup_cons.mp hnd).2 h1)

theorem topoOkFrom_spec (g : DepGraph) : ∀ (o seen : List Str),
    topoOkFrom g seen o → ∀ l1 a l2, o = l1 ++ a :: l2 →
    ∀ b ∈ lookupDeps g a, isKey g b = true → b ∈ seen ++ l1 := by
  intro o
  induction o with
  | nil =>
      intro seen _ l1 a l2 heq
      exact absurd heq (by simp)
  | cons x o' ih =>
      intro seen htopo l1 a l2 heq b hb hkey
      obtain ⟨h1, h2⟩ := htopo
      cases l1 with
      | nil =>
          simp only [List.nil_append] at heq
          injection heq with hxa ho
          subst hxa
          simpa using h1 b hb hkey
      | cons y l1' =>
          simp only [List.cons_append] at heq
          injection heq with hxy ho
          subst hxy
          have := ih (seen ++ [x]) h2 l1' a l2 ho b hb hkey
          rw [List.append_assoc] at this
          simpa using this

theorem chain_transGen (g : DepGraph) : ∀ (l : List Str) (t0 : Str),
    List.Chain' (fun a b => DepEdge g b a) (t0 :: l) →
    ∀ n ∈ t0 :: l, n = t0 ∨ Relation.TransGen (DepEdge g) n t0 := by
  intro l
  induction l with
  | nil =>
      intro t0 _ n hn
      simp only [List.mem_singleton] at hn
      exact Or.inl hn
  | cons t1 l' ih =>
      intro t0 hch n hn
      have hcons := List.chain'_cons.mp hch
      rcases List.mem_cons.mp hn with h1 | h1
      · exact Or.inl h1
      · rcases ih t1 hcons.2 n h1 with h2 | h2
        · subst h2
          exact Or.inr (Relation.TransGen.single hcons.1)
        · exact Or.inr (Relation.TransGen.tail h2 hcons.1)

theorem length_filter_le_of : ∀ (l : List Str) (p q : Str → Bool),
    (∀ x ∈ l, q x = true → p x = true) →
    (l.filter q).length ≤ (l.filter p).length := by
  intro l
  induction l with
  | nil => intro p q _; exact Nat.le_refl _
  | cons a l' ih =>
      intro p q himp
      have ih' := ih p q (fun x hx => himp x (List.mem_cons_of_mem _ hx))
      by_cases hq : q a = true
      · have hp := himp a (List.mem_cons_self _ _) hq
        simp only [List.filter_cons, hq, hp, if_true, List.length_cons]
        exact Nat.succ_le_succ ih'
      · have hq' : q a = false := by
          cases h : q a
          · rfl
          · exact absurd h hq
        simp only [List.filter_cons, hq', Bool.false_eq_true, if_false]
        by_cases hp : p a = true
        · simp only [hp, if_true, List.length_cons]
          exact Nat.le_succ_of_le ih'
        · have hp' : p a = false := by
            cases h : p a
            · rfl
            · exact absurd h hp
          simp only [hp', Bool.false_eq_true, if_false]
          exact ih'

theorem length_filter_lt_of : ∀ (l : List Str) (p q : Str → Bool),
    (∀ x ∈ l, q x = true → p x = true) →
    ∀ n ∈ l, p n = true → q n = false →
    (l.filter q).length < (l.filter p).length := by
  intro l
  induction l with
  | nil => intro p q _ n hn; simp at hn
  | cons a l' ih =>
      intro p q himp n hn hp hq
      have himp' : ∀ x ∈ l', q x = true → p x = true :=
        fun x hx => himp x (List.mem_cons_of_mem _ hx)
      rcases List.mem_cons.mp hn with h1 | h1
      · subst h1
        simp only [List.filter_cons, hq, Bool.false_eq_true, if_false, hp, if_true,
          List.length_cons]
        exact Nat.lt_succ_of_le (length_filter_le_of l' p q himp')
      · have hlt := ih p q himp' n h1 hp hq
        by_cases hqa : q a = true
        · have hpa := himp a (List.mem_cons_self _ _) hqa
          simp only [List.filter_cons, hqa, hpa, if_true, List.length_cons]
          exact Nat.succ_lt_succ hlt
        · have hqa' : q a = false := by
            cases h : q a
            · rfl
            · exact absurd h hqa
          simp only [List.filter_cons, hqa', Bool.false_eq_true, if_false]
          by_cases hpa : p a = true
          · simp only [hpa, if_true, List.length_cons]
            exact Nat.lt_succ_of_lt hlt
          · have hpa' : p a = false := by
              cases h : p a
              · rfl
              · exact absurd h hpa
            simp only [hpa', Bool.false_eq_true, if_false]
            exact hlt

theorem lookupDeps_length_le (g : DepGraph) (n : Str) :
    (lookupDeps g n).length ≤ (g.map (fun p => p.snd.length)).sum := by
  unfold lookupDeps
  cases hf : g.find? (fun p => p.fst == n) with
  | none => simp
  | some p =>
      have hmem : p ∈ g := List.mem_of_find?_eq_some hf
      have : p.snd.length ∈ g.map (fun q => q.snd.length) :=
        List.mem_map.mpr ⟨p, hmem, rfl⟩
      exact List.le_sum_of_mem this

theorem keysOf_length (g : DepGraph) : (keysOf g).length = g.length := by
  unfold keysOf
  exact List.length_map _ _

theorem freeKeys_le (g : DepGraph) (temp visited : List Str) :
    (freeKeys g temp visited).length ≤ g.length := by
  unfold freeKeys
  calc ((keysOf g).dedup.filter _).length
      ≤ (keysOf g).dedup.length := List.length_filter_le _ _
    _ ≤ (keysOf g).length := (List.dedup_sublist _).length_le
    _ = g.length := keysOf_length g

theorem graphFuel_ge (g : DepGraph) :
    (freeKeys g [] []).length * fuelSlice g + (keysOf g).length + 1 ≤ graphFuel g := by
  have h1 : (freeKeys g [] []).length ≤ g.length := freeKeys_le g [] []
  have h2 : (keysOf g).length = g.length := keysOf_length g
  have h3 : g.length + 1 ≤ fuelSlice g := by
    unfold fuelSlice
    omega
  unfold graphFuel
  have h4 : (freeKeys g [] []).length * fuelSlice g ≤ g.length * fuelSlice g :=
    Nat.mul_le_mul_right _ h1
  have h5 : (g.length + 1) * fuelSlice g = g.length * fuelSlice g + fuelSlice g := by
    ring
  omega

theorem contains_iff (l : List Str) (x : Str) : l.contains x = true ↔ x ∈ l := by
  simp

theorem topoOk_append (g : DepGraph) : ∀ (o₁ o₂ s : List Str),
    topoOkFrom g s (o₁ ++ o₂) ↔
      (topoOkFrom g s o₁ ∧ topoOkFrom g (s ++ o₁) o₂) := by
  intro o₁
  induction o₁ with
  | nil =>
      intro o₂ s
      simp [topoOkFrom]
  | cons a o₁' ih =>
      intro o₂ s
      simp only [List.cons_append, topoOkFrom, List.append_eq, ih o₂ (s ++ [a]),
        List.append_assoc, List.singleton_append, List.nil_append, and_assoc]

theorem visitL_ok (g : DepGraph) : ∀ (fuel : Nat) (ns temp visited order v' o' : List Str),
    visitL g fuel ns temp visited order = .ok (v', o') →
    (∀ n ∈ ns, isKey g n = true) →
    visited = order.reverse →
    topoOkFrom g [] order →
    order.Nodup →
    (∀ t ∈ temp, t ∉ order) →
    ∃ d, o' = order ++ d ∧ v' = o'.reverse ∧ topoOkFrom g [] o' ∧ o'.Nodup ∧
      (∀ x ∈ d, isKey g x = true ∧ x ∉ temp) ∧ (∀ n ∈ ns, n ∈ o') ∧
      (∀ t ∈ temp, t ∉ o') := by
  intro fuel
  induction fuel with
  | zero =>
      intro ns temp visited order v' o' h
      rw [visitL] at h
      exact absurd h (by simp)
  | succ fuel ih =>
      intro ns temp visited order v' o' h hkeys hvis htopo hnd htmp
      cases ns with
      | nil =>
          rw [visitL] at h
          injection h with h
          injection h with h1 h2
          subst h1; subst h2
          exact ⟨[], by simp, hvis, htopo, hnd, by simp, by simp, htmp⟩
      | cons n ns' =>
          rw [visitL] at h
          by_cases htn : temp.contains n = true
          · rw [if_pos htn] at h
            exact absurd h (by simp)
          · rw [if_neg htn] at h
            by_cases hvn : visited.contains n = true
            · rw [if_pos hvn] at h
              obtain ⟨d, hd⟩ := ih ns' temp visited order v' o' h
                (fun m hm => hkeys m (List.mem_cons_of_mem _ hm)) hvis htopo hnd htmp
              refine ⟨d, hd.1, hd.2.1, hd.2.2.1, hd.2.2.2.1, hd.2.2.2.2.1, ?_,
                hd.2.2.2.2.2.2⟩
              intro m hm
              rcases List.mem_cons.mp hm with h1 | h1
              · subst h1
                have hmo : m ∈ order := by
                  have h2 : m ∈ visited := (contains_iff _ _).mp hvn
                  rw [hvis] at h2
                  exact List.mem_reverse.mp h2
                rw [hd.1]
                exact List.mem_append.mpr (Or.inl hmo)
              · exact hd.2.2.2.2.2.1 m h1
            · rw [if_neg hvn] at h
              have hnotord : n ∉ order := by
                intro hmem
                apply hvn
                rw [contains_iff, hvis]
                exact List.mem_reverse.mpr hmem
              cases hchild : visitL g fuel ((lookupDeps g n).filter (isKey g))
                  (n :: temp) visited order with
              | error e => rw [hchild] at h; exact absurd h (by simp)
              | ok p =>
                  obtain ⟨v, o⟩ := p
                  rw [hchild] at h
                  obtain ⟨d1, ho1, hv1, htopo1, hnd1, hkeys1, hns1, htmp1⟩ :=
                    ih _ _ _ _ v o hchild
                      (fun m hm => (List.mem_filter.mp hm).2)
                      hvis htopo hnd
                      (by
                        intro t ht
                        rcases List.mem_cons.mp ht with h1 | h1
                        · subst h1; exact hnotord
                        · exact htmp t h1)
                  have hkeyn : isKey g n = true := hkeys n (List.mem_cons_self _ _)
                  have hnnoto : n ∉ o := htmp1 n (List.mem_cons_self _ _)
                  have hvis2 : n :: v = (o ++ [n]).reverse := by
                    rw [hv1]
                    simp
                  have htopo2 : topoOkFrom g [] (o ++ [n]) := by
                    rw [topoOk_append]
                    refine ⟨htopo1, ?_, trivial⟩
                    intro b hb hkb
                    exact hns1 b (List.mem_filter.mpr ⟨hb, hkb⟩)
                  have hnd2 : (o ++ [n]).Nodup := by
                    rw [List.nodup_append]
                    refine ⟨hnd1, List.nodup_singleton _, ?_⟩
                    intro x hx hxn
                    rw [List.mem_singleton] at hxn
                    subst hxn
                    exact hnnoto hx
                  have htmp2 : ∀ t ∈ temp, t ∉ o ++ [n] := by
                    intro t ht hmem
                    rcases List.mem_append.mp hmem with h1 | h1
                    · exact htmp1 t (List.mem_cons_of_mem _ ht) h1
                    · simp only [List.mem_singleton] at h1
                      subst h1
                      exact htn ((contains_iff _ _).mpr ht)
                  obtain ⟨d2, ho2, hv2, htopo3, hnd3, hkeys2, hns2, htmp3⟩ :=
                    ih ns' temp (n :: v) (o ++ [n]) v' o' h
                      (fun m hm => hkeys m (List.mem_cons_of_mem _ hm))
                      hvis2 htopo2 hnd2 htmp2
                  refine ⟨d1 ++ n :: d2, ?_, hv2, htopo3, hnd3, ?_, ?_, htmp3⟩
                  · rw [ho2, ho1]
                    simp
                  · intro x hx
                    rcases List.mem_append.mp hx with h1 | h1
                    · have := hkeys1 x h1
                      exact ⟨this.1, fun hc => this.2 (List.mem_cons_of_mem _ hc)⟩
                    · rcases List.mem_cons.mp h1 with h2 | h2
                      · subst h2
                        exact ⟨hkeyn, fun hc => htn ((contains_iff _ _).mpr hc)⟩
                      · have := hkeys2 x h2
                        exact this
                  · intro m hm
                    rcases List.mem_cons.mp hm with h1 | h1
                    · subst h1
                      rw [ho2]
                      exact List.mem_append.mpr (Or.inl (List.mem_append.mpr
                        (Or.inr (List.mem_singleton.mpr rfl))))
                    · exact hns2 m h1

theorem visitL_mono (g : DepGraph) : ∀ (fuel : Nat) (ns temp visited order v' o' : List Str),
    visitL g fuel ns temp visited order = .ok (v', o') →
    ∀ x ∈ visited, x ∈ v' := by
  intro fuel
  induction fuel with
  | zero =>
      intro ns temp visited order v' o' h
      rw [visitL] at h
      exact absurd h (by simp)
  | succ fuel ih =>
      intro ns temp visited order v' o' h
      cases ns with
      | nil =>
          rw [visitL] at h
          injection h with h
          injection h with h1 h2
          subst h1
          exact fun x hx => hx
      | cons n ns' =>
          rw [visitL] at h
          by_cases htn : temp.contains n = true
          · rw [if_pos htn] at h
            exact absurd h (by simp)
          · rw [if_neg htn] at h
            by_cases hvn : visited.contains n = true
            · rw [if_pos hvn] at h
              exact ih ns' temp visited order v' o' h
            · rw [if_neg hvn] at h
              cases hchild : visitL g fuel ((lookupDeps g n).filter (isKey g))
                  (n :: temp) visited order with
              | error e => rw [hchild] at h; exact absurd h (by simp)
              | ok p =>
                  obtain ⟨v, o⟩ := p
                  rw [hchild] at h
                  intro x hx
                  have hxv : x ∈ v := ih _ _ _ _ v o hchild x hx
                  exact ih ns' temp (n :: v) (o ++ [n]) v' o' h x
                    (List.mem_cons_of_mem _ hxv)

theorem cycleMsg_ne_fuelErr (n : Str) : cycleMsg n ≠ fuelErrMsg := by
  intro he
  have h0 : (cycleMsg n).head? = fuelErrMsg.head? := by rw [he]
  rw [show (cycleMsg n).head? = some 'C' from rfl,
    show fuelErrMsg.head? = some 'm' from rfl] at h0
  exact absurd h0 (by decide)

theorem visitL_fuel (g : DepGraph) : ∀ (fuel : Nat) (ns temp visited order : List Str),
    (∀ x ∈ ns, isKey g x = true) →
    (freeKeys g temp visited).length * fuelSlice g + ns.length + 1 ≤ fuel →
    visitL g fuel ns temp visited order ≠ .error fuelErrMsg := by
  intro fuel
  induction fuel with
  | zero =>
      intro ns temp visited order _ hle
      omega
  | succ fuel ih =>
      intro ns temp visited order hkeys hle
      cases ns with
      | nil =>
          rw [visitL]
          simp
      | cons n ns' =>
          rw [visitL]
          by_cases htn : temp.contains n = true
          · rw [if_pos htn]
            intro h
            injection h with h
            exact cycleMsg_ne_fuelErr n h
          · rw [if_neg htn]
            by_cases hvn : visited.contains n = true
            · rw [if_pos hvn]
              refine ih ns' temp visited order
                (fun m hm => hkeys m (List.mem_cons_of_mem _ hm)) ?_
              simp only [List.length_cons] at hle
              omega
            · rw [if_neg hvn]
              have hkeyn : isKey g n = true := hkeys n (List.mem_cons_self _ _)
              have hndk : n ∈ (keysOf g).dedup := by
                rw [List.mem_dedup]
                exact (contains_iff _ _).mp hkeyn
              have hpn : (!(temp.contains n) && !(visited.contains n)) = true := by
                simp only [Bool.and_eq_true, Bool.not_eq_true']
                constructor
                · cases hc : temp.contains n
                  · rfl
                  · exact absurd hc htn
                · cases hc : visited.contains n
                  · rfl
                  · exact absurd hc hvn
              have hslice2 : 2 ≤ fuelSlice g := by unfold fuelSlice; omega
              have hdf : ((lookupDeps g n).filter (isKey g)).length + 2 ≤ fuelSlice g := by
                have h1 : ((lookupDeps g n).filter (isKey g)).length ≤
                    (lookupDeps g n).length := List.length_filter_le _ _
                have h2 : (lookupDeps g n).length ≤
                    (g.map (fun p => p.snd.length)).sum := by
                  unfold lookupDeps
                  cases hf : g.find? (fun p => p.fst == n) with
                  | none => simp
                  | some p =>
                      have hmem : p ∈ g := List.mem_of_find?_eq_some hf
                      exact List.le_sum_of_mem
                        (List.mem_map.mpr ⟨p, hmem, rfl⟩)
                unfold fuelSlice
                omega
              have hchildT : (freeKeys g (n :: temp) visited).length <
                  (freeKeys g temp visited).length := by
                unfold freeKeys
                refine length_filter_lt_of (keysOf g).dedup _ _ ?_ n hndk hpn ?_
                · intro x _ hx
                  simp only [Bool.and_eq_true, Bool.not_eq_true'] at hx ⊢
                  refine ⟨?_, hx.2⟩
                  cases hc : temp.contains x
                  · rfl
                  · exfalso
                    have h1 : x ∈ n :: temp :=
                      List.mem_cons_of_mem _ ((contains_iff _ _).mp hc)
                    have h2 := (contains_iff (n :: temp) x).mpr h1
                    rw [h2] at hx
                    simp at hx
                · rw [(contains_iff (n :: temp) n).mpr (List.mem_cons_self _ _)]
                  simp
              have hmul : (freeKeys g (n :: temp) visited).length * fuelSlice g +
                  fuelSlice g ≤ (freeKeys g temp visited).length * fuelSlice g := by
                have h1 : (freeKeys g (n :: temp) visited).length + 1 ≤
                    (freeKeys g temp visited).length := hchildT
                have h2 := Nat.mul_le_mul_right (fuelSlice g) h1
                rw [Nat.add_mul, Nat.one_mul] at h2
                exact h2
              cases hchild : visitL g fuel ((lookupDeps g n).filter (isKey g))
                  (n :: temp) visited order with
              | error e =>
                  intro h
                  injection h with h
                  subst h
                  exact ih _ _ _ _ (fun m hm => (List.mem_filter.mp hm).2)
                    (by simp only [List.length_cons] at hle; omega) hchild
              | ok p =>
                  obtain ⟨v, o⟩ := p
                  have hcontT : (freeKeys g temp (n :: v)).length <
                      (freeKeys g temp visited).length := by
                    unfold freeKeys
                    refine length_filter_lt_of (keysOf g).dedup _ _ ?_ n hndk hpn ?_
                    · intro x _ hx
                      simp only [Bool.and_eq_true, Bool.not_eq_true'] at hx ⊢
                      refine ⟨hx.1, ?_⟩
                      cases hc : visited.contains x
                      · rfl
                      · exfalso
                        have h1 : x ∈ v := visitL_mono g fuel _ _ _ _ v o hchild x
                          ((contains_iff _ _).mp hc)
                        have h2 := (contains_iff (n :: v) x).mpr
                          (List.mem_cons_of_mem _ h1)
                        rw [h2] at hx
                        simp at hx
                    · rw [(contains_iff (n :: v) n).mpr (List.mem_cons_self _ _)]
                      simp
                  have hmul2 : (freeKeys g temp (n :: v)).length * fuelSlice g +
                      fuelSlice g ≤ (freeKeys g temp visited).length * fuelSlice g := by
                    have h1 : (freeKeys g temp (n :: v)).length + 1 ≤
                        (freeKeys g temp visited).length := hcontT
                    have h2 := Nat.mul_le_mul_right (fuelSlice g) h1
                    rw [Nat.add_mul, Nat.one_mul] at h2
                    exact h2
                  refine ih ns' temp (n :: v) (o ++ [n])
                    (fun m hm => hkeys m (List.mem_cons_of_mem _ hm)) ?_
                  simp only [List.length_cons] at hle
                  omega

theorem visitL_err (g : DepGraph) : ∀ (fuel : Nat) (ns temp visited order : List Str)
    (e : Str),
    visitL g fuel ns temp visited order = .error e →
    e ≠ fuelErrMsg →
    (∀ x ∈ ns, isKey g x = true) →
    (∀ x ∈ ns, ∀ t0, temp.head? = some t0 → DepEdge g t0 x) →
    List.Chain' (fun a b => DepEdge g b a) temp →
    (∃ m, e = cycleMsg m ∧ isKey g m = true) ∧ HasCycle g := by
  intro fuel
  induction fuel with
  | zero =>
      intro ns temp visited order e h hne
      rw [visitL] at h
      injection h with h
      exact absurd h.symm hne
  | succ fuel ih =>
      intro ns temp visited order e h hne hkeys hhead hch
      cases ns with
      | nil =>
          rw [visitL] at h
          exact absurd h (by simp)
      | cons n ns' =>
          rw [visitL] at h
          by_cases htn : temp.contains n = true
          · rw [if_pos htn] at h
            injection h with h
            have hkeyn : isKey g n = true := hkeys n (List.mem_cons_self _ _)
            refine ⟨⟨n, h.symm, hkeyn⟩, ?_⟩
            have hmem : n ∈ temp := (contains_iff _ _).mp htn
            cases temp with
            | nil => simp at hmem
            | cons t0 ts =>
                have hedge : DepEdge g t0 n :=
                  hhead n (List.mem_cons_self _ _) t0 rfl
                rcases chain_transGen g ts t0 hch n hmem with h1 | h1
                · subst h1
                  exact ⟨n, Relation.TransGen.single hedge⟩
                · exact ⟨n, Relation.TransGen.tail h1 hedge⟩
          · rw [if_neg htn] at h
            by_cases hvn : visited.contains n = true
            · rw [if_pos hvn] at h
              exact ih ns' temp visited order e h hne
                (fun m hm => hkeys m (List.mem_cons_of_mem _ hm))
                (fun m hm => hhead m (List.mem_cons_of_mem _ hm)) hch
            · rw [if_neg hvn] at h
              have hkeyn : isKey g n = true := hkeys n (List.mem_cons_self _ _)
              cases hchild : visitL g fuel ((lookupDeps g n).filter (isKey g))
                  (n :: temp) visited order with
              | error e2 =>
                  rw [hchild] at h
                  injection h with h
                  subst h
                  refine ih _ (n :: temp) visited order e2 hchild hne
                    (fun m hm => (List.mem_filter.mp hm).2) ?_ ?_
                  · intro x hx t0 ht0
                    simp only [List.head?_cons, Option.some.injEq] at ht0
                    subst ht0
                    have hmf := List.mem_filter.mp hx
                    exact ⟨hkeyn, hmf.2, hmf.1⟩
                  · cases temp with
                    | nil => simp
                    | cons t0 ts =>
                        rw [List.chain'_cons]
                        exact ⟨hhead n (List.mem_cons_self _ _) t0 rfl, hch⟩
              | ok p =>
                  obtain ⟨v, o⟩ := p
                  rw [hchild] at h
                  exact ih ns' temp (n :: v) (o ++ [n]) e h hne
                    (fun m hm => hkeys m (List.mem_cons_of_mem _ hm))
                    (fun m hm => hhead m (List.mem_cons_of_mem _ hm)) hch

theorem topoOk_rank (g : DepGraph) (o : List Str) (htopo : topoOkFrom g [] o)
    (hnd : o.Nodup) (hcomp : ∀ n, isKey g n = true → n ∈ o) :
    ∀ a b, DepEdge g a b → rankIn o b < rankIn o a := by
  rintro a b ⟨hka, hkb, hdep⟩
  have ha : a ∈ o := hcomp a hka
  obtain ⟨l1, l2, heq, -⟩ := mem_split_first ha
  have hb1 : b ∈ [] ++ l1 := topoOkFrom_spec g o [] htopo l1 a l2 heq b hdep hkb
  rw [List.nil_append] at hb1
  rw [heq]
  rw [heq] at hnd
  exact rank_before l1 l2 a b hnd hb1

theorem transGen_rank (g : DepGraph) (o : List Str)
    (hrank : ∀ a b, DepEdge g a b → rankIn o b < rankIn o a) :
    ∀ n m, Relation.TransGen (DepEdge g) n m → rankIn o m < rankIn o n := by
  intro n m h
  induction h with
  | single h1 => exact hrank _ _ h1
  | tail h1 h2 ih => exact Nat.lt_trans (hrank _ _ h2) ih

theorem calc_ok_props (g : DepGraph) (order : List Str)
    (h : calculate_execution_order g = .ok order) :
    order.Nodup ∧ (∀ n, isKey g n = true ↔ n ∈ order) ∧
    (∀ a b, DepEdge g a b → rankIn order b < rankIn order a) ∧ ¬ HasCycle g := by
  unfold calculate_execution_order at h
  cases hv : visitL g (graphFuel g) (keysOf g) [] [] [] with
  | error e => rw [hv] at h; exact absurd h (by simp)
  | ok p =>
      obtain ⟨v, o⟩ := p
      rw [hv] at h
      injection h with h
      subst h
      obtain ⟨d, ho, hvr, htopo, hnd, hkeysd, hns, -⟩ :=
        visitL_ok g (graphFuel g) (keysOf g) [] [] [] v o hv
          (fun m hm => (contains_iff _ _).mpr hm)
          rfl trivial List.nodup_nil (by simp)
      have hcomp : ∀ n, isKey g n = true ↔ n ∈ o := by
        intro n
        constructor
        · intro hk
          exact hns n ((contains_iff _ _).mp hk)
        · intro hmem
          rw [ho] at hmem
          simp only [List.nil_append] at hmem
          exact (hkeysd n hmem).1
      have hrank := topoOk_rank g o htopo hnd (fun n hk => (hcomp n).mp hk)
      refine ⟨hnd, hcomp, hrank, ?_⟩
      rintro ⟨n, hcyc⟩
      exact Nat.lt_irrefl _ (transGen_rank g o hrank n n hcyc)

theorem calc_err_props (g : DepGraph) (e : Str)
    (h : calculate_execution_order g = .error e) :
    (∃ m, e = cycleMsg m ∧ isKey g m = true) ∧ HasCycle g := by
  unfold calculate_execution_order at h
  cases hv : visitL g (graphFuel g) (keysOf g) [] [] [] with
  | ok p =>
      rw [hv] at h
      exact absurd h (by simp)
  | error e2 =>
      rw [hv] at h
      injection h with h
      subst h
      have hkeys : ∀ x ∈ keysOf g, isKey g x = true :=
        fun x hx => (contains_iff _ _).mpr hx
      have hne : e2 ≠ fuelErrMsg := by
        intro hcontra
        subst hcontra
        exact visitL_fuel g (graphFuel g) (keysOf g) [] [] [] hkeys
          (graphFuel_ge g) hv
      exact visitL_err g (graphFuel g) (keysOf g) [] [] [] e2 hv hne hkeys
        (by intro x hx t0 ht0; simp at ht0) List.chain'_nil

/-- C4.  Computing the execution order fails exactly when the graph has a
genuine dependency cycle among its keys (a node revisited while still on the
current recursion path); every failure carries the message `Circular
dependency detected involving \x7bnode\x7d` for some key of the graph, so a diamond
dependency - a node reachable twice but already fully visited - does not
fail.  On `\x7bA: [B], B: [A]\x7d` the computation fails naming `A`; the
diamond over `D` succeeds with order `D, B, C, A`. -/
theorem c4_circular_dependency_detection :
    (∀ g : DepGraph, (keysOf g).Nodup →
      ((∃ e, calculate_execution_order g = .error e) ↔ HasCycle g)) ∧
    (∀ (g : DepGraph) (e : Str), calculate_execution_order g = .error e →
      ∃ n, isKey g n = true ∧ e = cycleMsg n) ∧
    calculate_execution_order [(S "A", [S "B"]), (S "B", [S "A"])] =
      .error (cycleMsg (S "A")) ∧
    calculate_execution_order
      [(S "A", [S "B", S "C"]), (S "B", [S "D"]), (S "C", [S "D"]), (S "D", [])] =
      .ok [S "D", S "B", S "C", S "A"] := by
  refine ⟨?_, ?_, rfl, rfl⟩
  · intro g _
    constructor
    · rintro ⟨e, he⟩
      exact (calc_err_props g e he).2
    · intro hcyc
      cases hres : calculate_execution_order g with
      | error e => exact ⟨e, rfl⟩
      | ok order => exact absurd hcyc (calc_ok_props g order hres).2.2.2
  · intro g e he
    obtain ⟨⟨m, hm1, hm2⟩, -⟩ := calc_err_props g e he
    exact ⟨m, hm2, hm1⟩

/-- C5.  For every acyclic dependency graph the sort returns an order that
lists exactly the keys of the graph, without duplicates, and places every
calculation after each of its dependencies that is itself a key; dependency
names that are not keys are treated as leaves and never enter the order.  On
`\x7bA: [B], B: [C], C: []\x7d` the order is `C, B, A`. -/
theorem c5_execution_order_topological :
    (∀ g : DepGraph, (keysOf g).Nodup → ¬ HasCycle g →
      ∃ order, calculate_execution_order g = .ok order ∧ order.Nodup ∧
        (∀ n, isKey g n = true ↔ n ∈ order) ∧
        (∀ a b, DepEdge g a b → rankIn order b < rankIn order a)) ∧
    calculate_execution_order [(S "A", [S "B"]), (S "B", [S "C"]), (S "C", [])] =
      .ok [S "C", S "B", S "A"] := by
  refine ⟨?_, rfl⟩
  intro g _ hacyc
  cases hres : calculate_execution_order g with
  | error e => exact absurd (calc_err_props g e hres).2 hacyc
  | ok order =>
      obtain ⟨hnd, hcomp, hrank, -⟩ := calc_ok_props g order hres
      exact ⟨order, rfl, hnd, hcomp, hrank⟩

end Tableau
